import Mathlib

/-!
Constant propagation pass: a shallow embedding of `ConstantPropagation.cpp`.

The pass keeps, for every basic block, two `std::map<string, int>` tables
(`IN` and `OUT`).  The two integers `INT_MIN` and `INT_MAX` are overloaded as
lattice elements: `INT_MIN` marks "not a constant" (it absorbs every meet), and
`INT_MAX` marks "nothing seen yet" (it is the identity of the meet).  Any other
integer is a known constant.

Modelling conventions:

* the C++ type `int` is a 32-bit two's complement integer; it is embedded as
  `Int`, and the results of `+`, `-` and `*` are brought back into range by
  `toInt` (signed overflow wraps around); the quotient `INT_MIN / -1` does not
  wrap: the C++ division is undefined there, the division instruction of the
  processor traps and the process is killed (`SIGFPE`), which the model records
  in the flag `trapped`;
* `std::map<string, int>` is a list of key/value pairs kept strictly ascending
  in the key, so that iteration order is the one of `std::map`;
* `std::map<BasicBlock *, ...>` is a total function on block indices, the value
  at an index never written being the empty map (what `operator[]` creates);
* an LLVM value is identified by the text `printAsOperand` gives it, and every
  instruction with a result carries an explicit name;
* the values of the functions considered are of three types: `alloca` yields a
  pointer, a comparison yields an `i1`, and every other instruction with a
  result (a load, a binary operation, a call, ...) yields an `i32`; named
  operands that no instruction defines are parameters or globals;
* `ConstantInt::get(type, k)` keeps the low bits of `k` for an integer type; for
  a type that is no integer type its `cast<IntegerType>` fails, and the rewrite
  has no result (`none`).
-/

namespace ConstantPropagation

/-! ## Machine integers and the two sentinels -/

/-- The C++ constant `INT_MIN`; the pass uses it for "not a constant". -/
def INT_MIN : Int := -2147483648

/-- The C++ constant `INT_MAX`; the pass uses it for "nothing seen yet". -/
def INT_MAX : Int := 2147483647

/-- Conversion of an integer to the C++ type `int` (32-bit wrap-around). -/
def toInt (x : Int) : Int := (x + 2147483648) % 4294967296 - 2147483648

/-- The test `v != INT_MIN && v != INT_MAX` by which `printConstants` and the
rewrite loop decide that a table entry is a concrete constant. -/
def isConstant (v : Int) : Prop := v ≠ INT_MIN ∧ v ≠ INT_MAX

instance (v : Int) : Decidable (isConstant v) := by
  unfold isConstant; infer_instance

/-! ## `std::map<string, int>` -/

/-- Lexicographic comparison of two character sequences by code point. -/
def ltChars : List Char → List Char → Bool
  | [], [] => false
  | [], _ :: _ => true
  | _ :: _, [] => false
  | a :: as, b :: bs =>
    if a.toNat < b.toNat then true
    else if a.toNat = b.toNat then ltChars as bs
    else false

/-- The ordering `std::less<std::string>` of the keys of a table. -/
def keyLt (a b : String) : Bool := ltChars a.data b.data

/-- Value stored under key `k` in a list of pairs (first match). -/
def lookup (k : String) : List (String × Int) → Option Int
  | [] => none
  | p :: t => if k = p.1 then some p.2 else lookup k t

/-- Ordered insertion of `k ↦ v`, replacing the value when `k` is present. -/
def assign (k : String) (v : Int) : List (String × Int) → List (String × Int)
  | [] => [(k, v)]
  | p :: t =>
    if keyLt k p.1 then (k, v) :: p :: t
    else if k = p.1 then (k, v) :: t
    else p :: assign k v t

/-- Removal of the entry of key `k`. -/
def remove (k : String) : List (String × Int) → List (String × Int)
  | [] => []
  | p :: t => if k = p.1 then remove k t else p :: remove k t

/-- Keys strictly ascending. -/
def Ascending (l : List (String × Int)) : Prop :=
  l.Pairwise (fun a b => keyLt a.1 b.1 = true)

theorem ltChars_irrefl (a : List Char) : ltChars a a = false := by
  induction a with
  | nil => rfl
  | cons c cs ih => simp [ltChars, ih]

theorem ltChars_trans : ∀ (a b c : List Char),
    ltChars a b = true → ltChars b c = true → ltChars a c = true
  | [], [], _, h, _ => by simp [ltChars] at h
  | [], _ :: _, [], _, h => by simp [ltChars] at h
  | [], _ :: _, _ :: _, _, _ => by simp [ltChars]
  | _ :: _, [], _, h, _ => by simp [ltChars] at h
  | _ :: _, _ :: _, [], _, h => by simp [ltChars] at h
  | x :: xs, y :: ys, z :: zs, h1, h2 => by
    simp only [ltChars] at h1 h2 ⊢
    have ih := ltChars_trans xs ys zs
    by_cases hxy : x.toNat < y.toNat
    · by_cases hyz : y.toNat < z.toNat
      · have : x.toNat < z.toNat := by omega
        simp [this]
      · by_cases hyz2 : y.toNat = z.toNat
        · have : x.toNat < z.toNat := by omega
          simp [this]
        · simp [hyz, hyz2] at h2
    · by_cases hxy2 : x.toNat = y.toNat
      · by_cases hyz : y.toNat < z.toNat
        · have : x.toNat < z.toNat := by omega
          simp [this]
        · by_cases hyz2 : y.toNat = z.toNat
          · have h3 : ¬ x.toNat < z.toNat := by omega
            have h4 : x.toNat = z.toNat := by omega
            simp only [hxy, hxy2, hyz, hyz2, h3, h4, if_true, if_false] at h1 h2 ⊢
            simp only [lt_self_iff_false, if_false, if_true] at h1 h2 ⊢
            exact ih h1 h2
          · simp [hyz, hyz2] at h2
      · simp [hxy, hxy2] at h1

theorem keyLt_irrefl (a : String) : keyLt a a = false := ltChars_irrefl a.data

theorem keyLt_trans {a b c : String} (h1 : keyLt a b = true) (h2 : keyLt b c = true) :
    keyLt a c = true := ltChars_trans _ _ _ h1 h2

theorem keyLt_ne {a b : String} (h : keyLt a b = true) : a ≠ b := by
  intro e; subst e; rw [keyLt_irrefl] at h; exact Bool.noConfusion h

theorem lookup_assign (k : String) (v : Int) (k' : String) (l : List (String × Int)) :
    lookup k' (assign k v l) = if k' = k then some v else lookup k' l := by
  induction l with
  | nil => simp [assign, lookup]
  | cons p t ih =>
    simp only [assign]
    by_cases e : k' = k
    · subst e
      split
      · simp [lookup]
      · split
        · simp [lookup]
        · rename_i _ h
          simp [lookup, h, ih]
    · split
      · simp [lookup, e]
      · split
        · rename_i _ h
          have : ¬ k' = p.1 := h ▸ e
          simp [lookup, e, this]
        · simp [lookup, ih, e]

theorem lookup_remove (k k' : String) (l : List (String × Int)) :
    lookup k' (remove k l) = if k' = k then none else lookup k' l := by
  induction l with
  | nil => simp [remove, lookup]
  | cons p t ih =>
    simp only [remove]
    by_cases e : k' = k
    · subst e
      split
      · simpa using ih
      · rename_i h
        simpa [lookup, h] using ih
    · split
      · rename_i h
        have : ¬ k' = p.1 := h ▸ e
        simp [ih, e, lookup, this]
      · simp [lookup, ih, e]

theorem mem_assign {k : String} {v : Int} {l : List (String × Int)} {q : String × Int}
    (h : q ∈ assign k v l) : q = (k, v) ∨ q ∈ l := by
  induction l with
  | nil => simpa [assign] using h
  | cons p t ih =>
    simp only [assign] at h
    split at h
    · simpa using h
    · split at h
      · rcases List.mem_cons.1 h with h | h
        · exact Or.inl h
        · exact Or.inr (List.mem_cons_of_mem _ h)
      · rcases List.mem_cons.1 h with h | h
        · exact Or.inr (h ▸ List.mem_cons_self _ _)
        · rcases ih h with h | h
          · exact Or.inl h
          · exact Or.inr (List.mem_cons_of_mem _ h)

theorem ltChars_total : ∀ (a b : List Char),
    ltChars a b = false → a ≠ b → ltChars b a = true
  | [], [], _, h => absurd rfl h
  | [], _ :: _, h, _ => by simp [ltChars] at h
  | _ :: _, [], _, _ => by simp [ltChars]
  | x :: xs, y :: ys, h1, h2 => by
    simp only [ltChars] at h1 ⊢
    by_cases hxy : x.toNat < y.toNat
    · simp [hxy] at h1
    · by_cases hxy2 : x.toNat = y.toNat
      · simp only [hxy, hxy2, if_false, if_true, lt_self_iff_false] at h1
        have hx : x = y := Char.ext (UInt32.ext (by simpa [Char.toNat, UInt32.toNat] using hxy2))
        subst hx
        have : xs ≠ ys := fun e => h2 (by rw [e])
        simp [ltChars_total xs ys h1 this]
      · have : y.toNat < x.toNat := by omega
        simp [this]

theorem keyLt_total {a b : String} (h : keyLt a b = false) (hne : a ≠ b) :
    keyLt b a = true := by
  apply ltChars_total _ _ h
  intro e
  exact hne (String.ext e)

theorem ascending_assign (k : String) (v : Int) {l : List (String × Int)}
    (h : Ascending l) : Ascending (assign k v l) := by
  unfold Ascending at *
  induction l with
  | nil => simp [assign]
  | cons p t ih =>
    have hp := List.pairwise_cons.1 h
    simp only [assign]
    split
    · rename_i hlt
      refine List.pairwise_cons.2 ⟨?_, h⟩
      intro q hq
      rcases List.mem_cons.1 hq with hq | hq
      · subst hq; exact hlt
      · exact keyLt_trans hlt (hp.1 q hq)
    · split
      · rename_i _ he
        refine List.pairwise_cons.2 ⟨?_, hp.2⟩
        intro q hq
        have := hp.1 q hq
        simpa [he] using this
      · rename_i hlt hne
        refine List.pairwise_cons.2 ⟨?_, ih hp.2⟩
        intro q hq
        rcases mem_assign hq with hq | hq
        · subst hq
          exact keyLt_total (by simpa using hlt) hne
        · exact hp.1 q hq

theorem mem_remove {k : String} {l : List (String × Int)} {q : String × Int}
    (h : q ∈ remove k l) : q ∈ l := by
  induction l with
  | nil => simp [remove] at h
  | cons p t ih =>
    simp only [remove] at h
    split at h
    · exact List.mem_cons_of_mem _ (ih h)
    · rcases List.mem_cons.1 h with h | h
      · exact h ▸ List.mem_cons_self _ _
      · exact List.mem_cons_of_mem _ (ih h)

theorem ascending_remove (k : String) {l : List (String × Int)}
    (h : Ascending l) : Ascending (remove k l) := by
  unfold Ascending at *
  induction l with
  | nil => simp [remove]
  | cons p t ih =>
    have hp := List.pairwise_cons.1 h
    simp only [remove]
    split
    · exact ih hp.2
    · exact List.pairwise_cons.2 ⟨fun q hq => hp.1 q (mem_remove hq), ih hp.2⟩

/-- A table `std::map<string, int>`: pairs in strictly ascending key order. -/
structure SMap where
  entries : List (String × Int)
  ascending : Ascending entries

namespace SMap

theorem ext_entries {a b : SMap} (h : a.entries = b.entries) : a = b := by
  cases a; cases b; simp only at h; subst h; rfl

instance : DecidableEq SMap := fun a b =>
  if h : a.entries = b.entries then isTrue (ext_entries h)
  else isFalse (fun e => h (by rw [e]))

/-- The empty table. -/
def empty : SMap := ⟨[], List.Pairwise.nil⟩

/-- The lookup `m.find(k)`: the value under `k`, if any. -/
def find? (m : SMap) (k : String) : Option Int := lookup k m.entries

/-- The assignment `m[k] = v`. -/
def set (m : SMap) (k : String) (v : Int) : SMap :=
  ⟨assign k v m.entries, ascending_assign k v m.ascending⟩

/-- The call `m.erase(k)`. -/
def erase (m : SMap) (k : String) : SMap :=
  ⟨remove k m.entries, ascending_remove k m.ascending⟩

/-- The value read by `m[k]`: an absent key reads as `0`. -/
def get (m : SMap) (k : String) : Int := (m.find? k).getD 0

/-- The side effect of reading `m[k]`: an absent key is created with value `0`. -/
def touch (m : SMap) (k : String) : SMap :=
  match m.find? k with
  | some _ => m
  | none => m.set k 0

/-- The keys of the table, ascending. -/
def keys (m : SMap) : List String := m.entries.map Prod.fst

end SMap

/-- The method `compareMaps`: every pair of `map1` is in `map2` with the same
value, and `map2` has no key that `map1` lacks. -/
def compareMaps (map1 map2 : SMap) : Bool :=
  map1.entries.all (fun pair => decide (map2.find? pair.1 = some pair.2)) &&
  map2.entries.all (fun pair => (map1.find? pair.1).isSome)

/-! ## The report (lines 51-67) -/

/-- The assignment `lineToVal[line] = v` on a `std::map<int, int>`, kept as a
list of pairs strictly ascending in the key. -/
def assignLine (line v : Int) : List (Int × Int) → List (Int × Int)
  | [] => [(line, v)]
  | p :: t =>
    if line < p.1 then (line, v) :: p :: t
    else if line = p.1 then (line, v) :: t
    else p :: assignLine line v t

/-- The table `lineToVal` after the first loop of `printConstants`, together
with `insToLine`, in which reading `insToLine[mp1.first]` creates absent keys. -/
def lineToVal (insToVal insToLine : SMap) : List (Int × Int) × SMap :=
  insToVal.entries.foldl
    (fun acc mp1 => (assignLine (acc.2.get mp1.1) mp1.2 acc.1, acc.2.touch mp1.1))
    ([], insToLine)

/-- The method `printConstants`: the pairs `line:value` it prints, in order. -/
def printConstants (insToVal insToLine : SMap) : List (Int × Int) :=
  (lineToVal insToVal insToLine).1.filter
    (fun mp2 => decide (mp2.2 ≠ INT_MIN ∧ mp2.2 ≠ INT_MAX))

/-! ## The meet of the worklist loop -/

/-- The value `inMapTemp[k]` holds after the body of the meet loop has run for
one entry `(k, v)` of a predecessor's `OUT` table, `cur` being the value
`inMapTemp[k]` read before. -/
def meet (cur v : Int) : Int :=
  if cur = INT_MIN ∨ v = INT_MIN then INT_MIN
  else if cur = INT_MAX then v
  else if v = INT_MAX then cur
  else if cur ≠ v then INT_MIN
  else cur

/-! ## The intermediate representation -/

/-- The types of the values considered. -/
inductive Ty where
  | i1 | i32 | ptr | void
  deriving DecidableEq, Repr

/-- An operand of an instruction: a `ConstantInt` of type `i32`, given by its
signed value, a `ConstantInt` of type `i1` (`true` or `false`), or any other
value, given by the text that `printAsOperand` prints for it (`%x`, `@g`,
...). -/
inductive Operand where
  | const (v : Int)
  | bool (b : Bool)
  | slot (name : String)
  deriving DecidableEq, Repr

/-- The opcodes for which `Instruction::isBinaryOp()` holds. -/
inductive BinaryOps where
  | Add | FAdd | Sub | FSub | Mul | FMul | UDiv | SDiv | FDiv | URem | SRem | FRem
  | Shl | LShr | AShr | And | Or | Xor
  deriving DecidableEq, Repr

/-- The predicates of `ICmpInst`. -/
inductive Predicate where
  | ICMP_EQ | ICMP_NE | ICMP_UGT | ICMP_UGE | ICMP_ULT | ICMP_ULE
  | ICMP_SGT | ICMP_SGE | ICMP_SLT | ICMP_SLE
  deriving DecidableEq, Repr

/-- The instructions.  A basic block is named by its index in the function.
`other` stands for every instruction the pass has no case for (calls, casts,
`switch`, `unreachable`, ...): `name` is the name of its result when it has
one, `opcode` the first word of its printed form, and `succs` its successor
blocks when it is a terminator. -/
inductive Instruction where
  | alloca (name : String)
  | load (name : String) (ptr : Operand)
  | store (value : Operand) (ptr : Operand)
  | binop (name : String) (op : BinaryOps) (lhs rhs : Operand)
  | icmp (name : String) (pred : Predicate) (lhs rhs : Operand)
  | br (dest : Nat)
  | condbr (cond : Operand) (ifTrue ifFalse : Nat)
  | ret (value : Option Operand)
  | other (name : Option String) (opcode : String) (operands : List Operand) (succs : List Nat)
  deriving DecidableEq, Repr

/-- A basic block: its instructions in order. -/
abbrev BasicBlock := List Instruction

/-- A function: its basic blocks in order, block `0` being the entry block. -/
structure Function where
  blocks : List BasicBlock
  deriving DecidableEq, Repr

/-- The block of index `b` (no instruction when `b` names no block). -/
def Function.block (F : Function) (b : Nat) : BasicBlock := F.blocks.getD b []

/-- The method `getLhsVar`: the first word of the printed instruction, which is
the name of the result for an instruction that has one and the opcode
otherwise. -/
def getLhsVar : Instruction → String
  | .alloca name => name
  | .load name _ => name
  | .store _ _ => "store"
  | .binop name _ _ _ => name
  | .icmp name _ _ _ => name
  | .br _ => "br"
  | .condbr _ _ _ => "br"
  | .ret _ => "ret"
  | .other name opcode _ _ => name.getD opcode

/-- The method `getLhsVarFromValue`: the operand printed without its type; a
literal of type `i32` prints as its decimal value, one of type `i1` as `true`
or `false`. -/
def getLhsVarFromValue : Operand → String
  | .const v => toString v
  | .bool b => if b then "true" else "false"
  | .slot name => name

/-- The method `Instruction::getType`: the type of the result.  An instruction
without a case of its own counts as an `i32` when it has a result. -/
def Instruction.getType : Instruction → Ty
  | .alloca _ => .ptr
  | .load _ _ => .i32
  | .binop _ _ _ _ => .i32
  | .icmp _ _ _ _ => .i1
  | .other (some _) _ _ _ => .i32
  | _ => .void

/-- Successor blocks of a terminator instruction. -/
def Instruction.successors : Instruction → List Nat
  | .br dest => [dest]
  | .condbr _ ifTrue ifFalse => [ifTrue, ifFalse]
  | .other _ _ _ succs => succs
  | _ => []

/-- Successor blocks of a basic block: those of its last instruction. -/
def successors (bb : BasicBlock) : List Nat :=
  match bb.getLast? with
  | some ins => ins.successors
  | none => []

/-- The range `predecessors(block)`: one entry for every edge into `block`.
The blocks are listed in function order; the meet loop treats every key
separately and its scalar meet is commutative and associative, so the order of
the predecessors has no influence on the table it computes. -/
def predecessors (F : Function) (block : Nat) : List Nat :=
  (List.range F.blocks.length).flatMap
    (fun p => ((successors (F.block p)).filter (fun d => d = block)).map (fun _ => p))

/-! ## Initialisation (lines 99-148) -/

/-- The kinds of instruction whose name the first loop enters into `outM`. -/
def isTracked : Instruction → Bool
  | .load _ _ => true
  | .alloca _ => true
  | .binop _ _ _ _ => true
  | .icmp _ _ _ _ => true
  | _ => false

/-- The table `outM` after the first loop over all instructions. -/
def outM (F : Function) : SMap :=
  F.blocks.foldl
    (fun m bb => bb.foldl
      (fun m ins => if isTracked ins then m.set (getLhsVar ins) INT_MAX else m) m)
    SMap.empty

/-- The table `insToLine` after the first loop has run over the given
instructions, `line` being the value of the counter before the first of them. -/
def insToLineFrom : List Instruction → Nat → SMap → SMap
  | [], _, m => m
  | ins :: rest, line, m =>
    insToLineFrom rest (line + 1)
      (match m.find? (getLhsVar ins) with
       | some _ => m
       | none => m.set (getLhsVar ins) (toInt (line + 1)))

/-- The table `insToLine`: first line at which each left-hand side occurs. -/
def insToLine (F : Function) : SMap := insToLineFrom F.blocks.flatten 0 SMap.empty

/-- Update of a per-block table. -/
def upd (T : Nat → SMap) (b : Nat) (m : SMap) : Nat → SMap :=
  fun x => if x = b then m else T x

/-- The variables of the worklist loop: the two per-block tables and the
queue; `trapped` tells that the process has been killed by a division trap, the
other fields then being the variables at that moment. -/
structure State where
  IN : Nat → SMap
  OUT : Nat → SMap
  q : List Nat
  trapped : Bool

/-- The state when the worklist loop is entered: every block of the function
has `outM` as `IN` and `OUT`, the `IN` table of the entry block has every key of
its `OUT` table set to `INT_MIN`, and the queue holds the entry block. -/
def initState (F : Function) : State :=
  let T : Nat → SMap := fun b => if b < F.blocks.length then outM F else SMap.empty
  { IN := upd T 0 ((T 0).entries.foldl (fun m mp => m.set mp.1 INT_MIN) (T 0))
    OUT := T
    q := [0]
    trapped := false }

/-! ## One iteration of the worklist loop (lines 151-419) -/

/-- The body of the meet loop for one entry `mp` of a predecessor's `OUT`
table.  Reading `inMapTemp[mp.first]` in the first condition creates the key
when it is absent; every branch then leaves `meet cur mp.second` under it. -/
def meetEntry (inMapTemp : SMap) (mp : String × Int) : SMap :=
  (inMapTemp.touch mp.1).set mp.1 (meet (inMapTemp.get mp.1) mp.2)

/-- The meet loop: all entries of the `OUT` tables of all predecessors. -/
def meetPreds (F : Function) (OUT : Nat → SMap) (block : Nat) (inMapTemp : SMap) : SMap :=
  (predecessors F block).foldl
    (fun m predBB => (OUT predBB).entries.foldl meetEntry m) inMapTemp

/-- The assignment `m[dst] = m[src]`. -/
def copy (m : SMap) (dst src : String) : SMap :=
  (m.touch src).set dst (m.get src)

/-- The value read for an operand of a binary operation or comparison: the
literal itself (`getZExtValue`, converted to `int`) for a `ConstantInt`, the
table entry `outMapTemp[name]` otherwise. -/
def operandVal (outMapTemp : SMap) : Operand → Int
  | .const v => toInt v
  | .bool b => if b then 1 else 0
  | .slot name => outMapTemp.get name

/-- The table after an operand has been read: a table lookup creates the key. -/
def operandTouch (outMapTemp : SMap) : Operand → SMap
  | .const _ => outMapTemp
  | .bool _ => outMapTemp
  | .slot name => outMapTemp.touch name

/-- The value `computedVal` after the `switch` on the opcode (lines 254-280).
The quotient is computed whenever the divisor is not `0`, before the test for
`INT_MIN` of line 282; the division of `INT_MIN` by `-1` traps, and there is no
value (`none`). -/
def computedVal (op : BinaryOps) (lhsval rhsval : Int) : Option Int :=
  match op with
  | .Add => some (toInt (lhsval + rhsval))
  | .Sub => some (toInt (lhsval - rhsval))
  | .Mul => some (toInt (lhsval * rhsval))
  | .SDiv =>
    if rhsval ≠ 0 then
      if lhsval = INT_MIN ∧ rhsval = -1 then none
      else some (toInt (Int.tdiv lhsval rhsval))
    else some 0
  | _ => some 0

/-- The value stored under the name of a binary operation (lines 282-288), when
the `switch` before it has not trapped. -/
def binaryResult (op : BinaryOps) (lhsval rhsval : Int) : Option Int :=
  (computedVal op lhsval rhsval).map
    (fun computedVal => if lhsval = INT_MIN ∨ rhsval = INT_MIN then INT_MIN else computedVal)

/-- The value `condition` after the `switch` on the predicate. -/
def condition (pred : Predicate) (lhsVal rhsVal : Int) : Bool :=
  match pred with
  | .ICMP_EQ => decide (lhsVal = rhsVal)
  | .ICMP_NE => decide (lhsVal ≠ rhsVal)
  | .ICMP_SGT => decide (lhsVal > rhsVal)
  | .ICMP_SLT => decide (lhsVal < rhsVal)
  | .ICMP_SGE => decide (lhsVal ≥ rhsVal)
  | .ICMP_SLE => decide (lhsVal ≤ rhsVal)
  | _ => false

/-- Whether the instruction is a conditional branch. -/
def isCondBr : Option Instruction → Bool
  | some (.condbr _ _ _) => true
  | _ => false

/-- The variables that the loop over the instructions of a block changes;
`trapped` tells that an instruction of the block has trapped. -/
structure Work where
  outMapTemp : SMap
  OUT : Nat → SMap
  q : List Nat
  trapped : Bool

/-- The table `outMapTemp` after one instruction that is neither a branch nor a
return; `next` is the instruction that follows it in the block.  There is no
table (`none`) when the division of a binary operation traps. -/
def transfer (ins : Instruction) (next : Option Instruction) (outMapTemp : SMap) :
    Option SMap :=
  match ins with
  | .store (.const c) ptr => some (outMapTemp.set (getLhsVarFromValue ptr) (toInt c))
  | .store (.bool b) ptr => some (outMapTemp.set (getLhsVarFromValue ptr) (if b then 1 else 0))
  | .store (.slot valueVarName) ptr =>
    some (copy outMapTemp (getLhsVarFromValue ptr) valueVarName)
  | .load name ptr => some (copy outMapTemp name (getLhsVarFromValue ptr))
  | .binop name op lhs rhs =>
    let lhsval := operandVal outMapTemp lhs
    let rhsval := operandVal outMapTemp rhs
    (binaryResult op lhsval rhsval).map
      (fun computedVal => (operandTouch (operandTouch outMapTemp lhs) rhs).set name computedVal)
  | .icmp name pred lhs rhs =>
    let lhsVal := operandVal outMapTemp lhs
    let rhsVal := operandVal outMapTemp rhs
    let m := operandTouch (operandTouch outMapTemp lhs) rhs
    let m := if rhsVal = INT_MIN ∨ lhsVal = INT_MIN then m.set name 2 else m
    some (if isCondBr next then
      if rhsVal = INT_MIN ∨ lhsVal = INT_MIN then m.set name 2
      else m.set name (if condition pred lhsVal rhsVal then 1 else 0)
    else m)
  | _ => some outMapTemp

/-- The body of the loop over the instructions of `block`, for one instruction. -/
def processIns (block : Nat) (ins : Instruction) (next : Option Instruction) (w : Work) : Work :=
  match ins with
  | .condbr cond trueBlock falseBlock =>
    let condlhsVar := getLhsVarFromValue cond
    let condStateVal := w.outMapTemp.get condlhsVar
    let outMapTemp := (w.outMapTemp.touch condlhsVar).erase condlhsVar
    let mapsEqual := compareMaps (w.OUT block) outMapTemp
    let q :=
      if !mapsEqual then
        if condStateVal = 1 then w.q ++ [trueBlock]
        else if condStateVal = 0 then w.q ++ [falseBlock]
        else w.q ++ [trueBlock, falseBlock]
      else w.q
    { outMapTemp := outMapTemp, OUT := upd w.OUT block outMapTemp, q := q,
      trapped := w.trapped }
  | .br nextBlock =>
    let mapsEqual := compareMaps (w.OUT block) w.outMapTemp
    let q := if !mapsEqual then w.q ++ [nextBlock] else w.q
    { outMapTemp := w.outMapTemp, OUT := upd w.OUT block w.outMapTemp, q := q,
      trapped := w.trapped }
  | .ret _ => { w with OUT := upd w.OUT block w.outMapTemp }
  | _ =>
    match transfer ins next w.outMapTemp with
    | some outMapTemp => { w with outMapTemp := outMapTemp }
    | none => { w with trapped := true }

/-- The loop over the instructions of `block`; it goes no further than an
instruction that traps. -/
def processInstrs (block : Nat) : List Instruction → Work → Work
  | [], w => w
  | ins :: rest, w =>
    if (processIns block ins rest.head? w).trapped then processIns block ins rest.head? w
    else processInstrs block rest (processIns block ins rest.head? w)

/-- One iteration of the worklist loop: the front block is taken off the queue,
its `IN` table is met with the `OUT` tables of its predecessors and stored, and
its instructions are processed, as far as the first that traps. -/
def step (F : Function) (s : State) : State :=
  match s.q with
  | [] => s
  | block :: q =>
    let inMapTemp := meetPreds F s.OUT block (s.IN block)
    let w := processInstrs block (F.block block)
      { outMapTemp := inMapTemp, OUT := s.OUT, q := q, trapped := false }
    { IN := upd s.IN block inMapTemp, OUT := w.OUT, q := w.q, trapped := w.trapped }

/-- The worklist loop run for at most `fuel` iterations; no iteration follows
one in which an instruction has trapped. -/
def runLoop (F : Function) : Nat → State → State
  | 0, s => s
  | fuel + 1, s =>
    match s.q with
    | [] => s
    | _ :: _ => if s.trapped then s else runLoop F fuel (step F s)

/-- The state in which the worklist loop ends, when `fuel` iterations are
enough to empty the queue and no instruction traps. -/
def analyse (F : Function) (fuel : Nat) : Option State :=
  let s := runLoop F fuel (initState F)
  if s.q = [] ∧ s.trapped = false then some s else none

/-! ## The rewrite loop (lines 427-451) -/

/-- The name under which other instructions use the result of an instruction,
if it has a result. -/
def resultName : Instruction → Option String
  | .alloca name => some name
  | .load name _ => some name
  | .binop name _ _ _ => some name
  | .icmp name _ _ _ => some name
  | .other name _ _ _ => name
  | _ => none

/-- The call `ConstantInt::get(type, k)` of line 442: the literal of the given
type that has the low bits of `k`.  For a type that is not an integer type the
`cast<IntegerType>` inside the call fails, and there is no literal (`none`). -/
def ConstantInt.get (type : Ty) (k : Int) : Option Operand :=
  match type with
  | .i32 => some (.const k)
  | .i1 => some (.bool (decide (k % 2 = 1)))
  | .ptr => none
  | .void => none

/-- An operand after the uses of `name` have been replaced by the literal
`constVal`. -/
def Operand.replace (name : String) (constVal : Operand) : Operand → Operand
  | .const v => .const v
  | .bool b => .bool b
  | .slot n => if n = name then constVal else .slot n

/-- An instruction with `f` applied to each of its operands. -/
def Instruction.mapOperands (f : Operand → Operand) : Instruction → Instruction
  | .alloca n => .alloca n
  | .load n ptr => .load n (f ptr)
  | .store value ptr => .store (f value) (f ptr)
  | .binop n op lhs rhs => .binop n op (f lhs) (f rhs)
  | .icmp n pred lhs rhs => .icmp n pred (f lhs) (f rhs)
  | .br dest => .br dest
  | .condbr cond t e => .condbr (f cond) t e
  | .ret value => .ret (value.map f)
  | .other n opcode ops succs => .other n opcode (ops.map f) succs

/-- An instruction after the uses of `name` have been replaced by the literal
`constVal`. -/
def Instruction.replaceUses (name : String) (constVal : Operand) : Instruction → Instruction :=
  Instruction.mapOperands (Operand.replace name constVal)

/-- The call `inst.replaceAllUsesWith(constVal)`.  Values are identified by
their names, which are unique within an LLVM function. -/
def replaceAllUsesWith (F : Function) (inst : Instruction) (constVal : Operand) : Function :=
  match resultName inst with
  | some name => ⟨F.blocks.map (fun bb => bb.map (Instruction.replaceUses name constVal))⟩
  | none => F

/-- The call `inst.eraseFromParent()` for the instruction at position `i` of
block `b`. -/
def eraseFromParent (F : Function) (b i : Nat) : Function :=
  ⟨F.blocks.modify (fun bb => bb.eraseIdx i) b⟩

/-- Whether the rewrite loop finds, in the table `OUTb` of the block, a concrete
constant under the left-hand side `lhsVar`. -/
def constantIn (OUTb : SMap) (lhsVar : String) : Option Int :=
  match OUTb.find? lhsVar with
  | some v => if v ≠ INT_MIN ∧ v ≠ INT_MAX then some v else none
  | none => none

/-- The inner loop of the rewrite over block `b`, the iterator standing at
position `i`; `n` bounds the number of instructions still to visit.  There is no
result (`none`) when `ConstantInt::get` fails for the type of an instruction
that the loop has selected. -/
def rewriteBlock (OUTb : SMap) (b : Nat) : Nat → Nat → Function → Option Function
  | 0, _, F => some F
  | n + 1, i, F =>
    match (F.block b)[i]? with
    | none => some F
    | some inst =>
      match constantIn OUTb (getLhsVar inst) with
      | some k =>
        match ConstantInt.get inst.getType k with
        | some constVal =>
          rewriteBlock OUTb b n i (eraseFromParent (replaceAllUsesWith F inst constVal) b i)
        | none => none
      | none => rewriteBlock OUTb b n (i + 1) F

/-- The rewrite loop over all blocks of the function. -/
def rewrite (OUT : Nat → SMap) (F : Function) : Option Function :=
  (List.range F.blocks.length).foldl
    (fun G b => G.bind (fun G => rewriteBlock (OUT b) b (G.block b).length 0 G)) (some F)

/-- The method `runOnFunction`: the analysis followed by the rewrite.  The
result is the final `OUT` tables and the rewritten function, when `fuel`
iterations empty the queue, no instruction traps and the rewrite has a
result. -/
def runOnFunction (F : Function) (fuel : Nat) : Option ((Nat → SMap) × Function) :=
  match analyse F fuel with
  | some s => (rewrite s.OUT F).map (fun G => (s.OUT, G))
  | none => none

/-! ## Concrete execution of a function -/

/-- The unsigned reading of a 32-bit integer. -/
def toUnsigned (x : Int) : Nat := (x % 4294967296).toNat

/-- The value of a binary operation on two `i32` values; `none` where LLVM
leaves the result undefined, and for the floating-point opcodes. -/
def evalBinary (op : BinaryOps) (a b : Int) : Option Int :=
  match op with
  | .Add => some (toInt (a + b))
  | .Sub => some (toInt (a - b))
  | .Mul => some (toInt (a * b))
  | .SDiv => if b = 0 ∨ (a = INT_MIN ∧ b = -1) then none else some (toInt (Int.tdiv a b))
  | .SRem => if b = 0 ∨ (a = INT_MIN ∧ b = -1) then none else some (toInt (Int.tmod a b))
  | .UDiv => if b = 0 then none else some (toInt (toUnsigned a / toUnsigned b : Nat))
  | .URem => if b = 0 then none else some (toInt (toUnsigned a % toUnsigned b : Nat))
  | .And => some (toInt (Nat.land (toUnsigned a) (toUnsigned b)))
  | .Or => some (toInt (Nat.lor (toUnsigned a) (toUnsigned b)))
  | .Xor => some (toInt (Nat.xor (toUnsigned a) (toUnsigned b)))
  | .Shl => if toUnsigned b < 32 then some (toInt (toUnsigned a * 2 ^ toUnsigned b : Nat)) else none
  | .LShr => if toUnsigned b < 32 then some (toInt (toUnsigned a / 2 ^ toUnsigned b : Nat)) else none
  | .AShr => if toUnsigned b < 32 then some (toInt (a / 2 ^ toUnsigned b)) else none
  | _ => none

/-- The truth value of a comparison of two `i32` values. -/
def evalPredicate (pred : Predicate) (a b : Int) : Bool :=
  match pred with
  | .ICMP_EQ => decide (a = b)
  | .ICMP_NE => decide (a ≠ b)
  | .ICMP_SGT => decide (a > b)
  | .ICMP_SGE => decide (a ≥ b)
  | .ICMP_SLT => decide (a < b)
  | .ICMP_SLE => decide (a ≤ b)
  | .ICMP_UGT => decide (toUnsigned a > toUnsigned b)
  | .ICMP_UGE => decide (toUnsigned a ≥ toUnsigned b)
  | .ICMP_ULT => decide (toUnsigned a < toUnsigned b)
  | .ICMP_ULE => decide (toUnsigned a ≤ toUnsigned b)

/-- Finite assignment of integers to names: registers, or memory cells named
by the pointer through which they are accessed. -/
abbrev Env := List (String × Int)

/-- The value bound to `name`, the most recent binding first. -/
def Env.val (e : Env) (name : String) : Option Int := lookup name e

/-- The value of an operand. -/
def evalOperand (regs : Env) : Operand → Option Int
  | .const v => some (toInt v)
  | .bool b => some (if b then 1 else 0)
  | .slot name => regs.val name

/-- What can be observed of one execution: the value returned, and the stores
performed, in order, each with the name of the pointer and the value. -/
structure Behaviour where
  returned : Option Int
  stores : List (String × Int)
  deriving DecidableEq, Repr

/-- Execution of the instructions `pc` of the current block, then of the blocks
they branch to, for at most `fuel` instructions.  `none` stands for an
execution that is undefined, that meets an instruction without a model here, or
that does not return within `fuel` instructions. -/
def exec (F : Function) : Nat → List Instruction → Env → Env → List (String × Int) →
    Option Behaviour
  | 0, _, _, _, _ => none
  | _ + 1, [], _, _, _ => none
  | fuel + 1, ins :: rest, regs, mem, stores =>
    match ins with
    | .alloca _ => exec F fuel rest regs mem stores
    | .load name (.slot p) =>
      match mem.val p with
      | some v => exec F fuel rest ((name, v) :: regs) mem stores
      | none => none
    | .load _ (.const _) => none
    | .load _ (.bool _) => none
    | .store value (.slot p) =>
      match evalOperand regs value with
      | some v => exec F fuel rest regs ((p, v) :: mem) (stores ++ [(p, v)])
      | none => none
    | .store _ (.const _) => none
    | .store _ (.bool _) => none
    | .binop name op lhs rhs =>
      match evalOperand regs lhs, evalOperand regs rhs with
      | some a, some b =>
        match evalBinary op a b with
        | some v => exec F fuel rest ((name, v) :: regs) mem stores
        | none => none
      | _, _ => none
    | .icmp name pred lhs rhs =>
      match evalOperand regs lhs, evalOperand regs rhs with
      | some a, some b =>
        exec F fuel rest ((name, if evalPredicate pred a b then 1 else 0) :: regs) mem stores
      | _, _ => none
    | .br dest => exec F fuel (F.block dest) regs mem stores
    | .condbr cond ifTrue ifFalse =>
      match evalOperand regs cond with
      | some c => exec F fuel (F.block (if c % 2 = 1 then ifTrue else ifFalse)) regs mem stores
      | none => none
    | .ret none => some ⟨none, stores⟩
    | .ret (some value) =>
      match evalOperand regs value with
      | some v => some ⟨some v, stores⟩
      | none => none
    | .other _ _ _ _ => none

/-- One concrete execution of the function from its entry block, with the given
argument values and initial memory. -/
def run (F : Function) (fuel : Nat) (args mem : Env) : Option Behaviour :=
  exec F fuel (F.block 0) args mem []

/-! ## Auxiliary notions for the analysis of the worklist loop -/

/-- Height of a table entry: an absent key is above `INT_MAX`, which is above
every other value, which is above `INT_MIN`. -/
def rank : Option Int → Nat
  | none => 3
  | some v => if v = INT_MIN then 0 else if v = INT_MAX then 2 else 1

/-- Sum of the heights that a table gives to the keys of `U`. -/
def phi (U : List String) (m : SMap) : Nat := (U.map (fun k => rank (m.find? k))).sum

/-- Every key has in `m'` at most the height it has in `m`. -/
def Below (m' m : SMap) : Prop := ∀ k, rank (m'.find? k) ≤ rank (m.find? k)

/-- The table `m'` is `m`, or it is below `m` and strictly so on a key of `U`. -/
def Lowered (U : List String) (m' m : SMap) : Prop :=
  Below m' m ∧ (m' = m ∨ phi U m' < phi U m)

/-- All keys of the table belong to `U`. -/
def KeysIn (U : List String) (m : SMap) : Prop := ∀ k, (m.find? k).isSome → k ∈ U

/-- The instructions at which the loop stores `OUT[block]`: branches and
returns. -/
def isBranchOrRet : Instruction → Bool
  | .br _ => true
  | .condbr _ _ _ => true
  | .ret _ => true
  | _ => false

/-- No branch or return stands before the last instruction of a block; this
holds of every well-formed function, where a terminator ends its block. -/
def TerminatorsLast (F : Function) : Prop :=
  ∀ bb ∈ F.blocks, ∀ ins ∈ bb.dropLast, isBranchOrRet ins = false

/-- Whether the block ends in a branch or return. -/
def storesOut (bb : List Instruction) : Bool :=
  match bb.getLast? with
  | some ins => isBranchOrRet ins
  | none => false

/-- The table `outMapTemp` at the end of the instruction loop, as a function of
the table at its start. -/
def candOut (block : Nat) (bb : List Instruction) (m : SMap) : SMap :=
  (processInstrs block bb
    { outMapTemp := m, OUT := fun _ => SMap.empty, q := [], trapped := false }).outMapTemp

/-- The operands of an instruction. -/
def operands : Instruction → List Operand
  | .alloca _ => []
  | .load _ ptr => [ptr]
  | .store value ptr => [value, ptr]
  | .binop _ _ lhs rhs => [lhs, rhs]
  | .icmp _ _ lhs rhs => [lhs, rhs]
  | .br _ => []
  | .condbr cond _ _ => [cond]
  | .ret value => value.toList
  | .other _ _ ops _ => ops

/-- The names an instruction can enter into a table. -/
def names (ins : Instruction) : List String :=
  getLhsVar ins :: (operands ins).map getLhsVarFromValue

/-- All names of the function: a finite universe for the keys of every table. -/
def allNames (F : Function) : List String := F.blocks.flatten.flatMap names

/-- Whether the stored `OUT` table of a block that stores one differs from the
table its instructions produce from its current `IN` table: `1` if so. -/
def stale (F : Function) (s : State) (b : Nat) : Nat :=
  if storesOut (F.block b) = true ∧ s.OUT b ≠ candOut b (F.block b) (s.IN b) then 1 else 0

/-- Weight of a block: the height of its `IN` table, plus one if its `OUT`
table is stale. -/
def blockWeight (F : Function) (s : State) (b : Nat) : Nat :=
  phi (allNames F) (s.IN b) + stale F s b

/-- The measure that every iteration of the worklist loop decreases. -/
def loopMeasure (F : Function) (s : State) : Nat :=
  s.q.length + 3 * ((List.range F.blocks.length).map (blockWeight F s)).sum

/-- All keys of all tables are names of the function. -/
def KeysInv (F : Function) (s : State) : Prop :=
  ∀ b, KeysIn (allNames F) (s.IN b) ∧ KeysIn (allNames F) (s.OUT b)

/-- The value that the specification gives to slot `k` in the `IN` table of
`block`: the meet, over all predecessors, of the value of `k` in the
predecessor's `OUT` table, a predecessor without the slot counting as `INT_MAX`
(Top); `start` is the value the meet starts from.  This definition follows the
words of the specification, for comparison with `meetPreds`. -/
def specMeet (F : Function) (OUT : Nat → SMap) (block : Nat) (k : String) (start : Int) : Int :=
  (predecessors F block).foldl (fun a p => meet a (((OUT p).find? k).getD INT_MAX)) start

/-! ## Auxiliary notions for the analysis of the rewrite loop -/

/-- The literal listed for the name `n` in `σ` (the first pair of a name
counts). -/
def literalOf (n : String) : List (String × Operand) → Option Operand
  | [] => none
  | p :: t => if n = p.1 then some p.2 else literalOf n t

/-- The literal that takes the place of an operand, `σ` listing the names
being replaced with their literals. -/
def Operand.subst (σ : List (String × Operand)) : Operand → Operand
  | .const v => .const v
  | .bool b => .bool b
  | .slot n =>
    match literalOf n σ with
    | some constVal => constVal
    | none => .slot n

/-- An instruction after the replacements `σ`. -/
def Instruction.subst (σ : List (String × Operand)) : Instruction → Instruction :=
  Instruction.mapOperands (Operand.subst σ)

/-- Whether the rewrite loop leaves the instruction in its block. -/
def kept (OUTb : SMap) (ins : Instruction) : Bool :=
  (constantIn OUTb (getLhsVar ins)).isNone

/-- The literal by which the rewrite loop replaces the uses of an instruction
that it selects. -/
def literalFor (OUTb : SMap) (ins : Instruction) : Option Operand :=
  match constantIn OUTb (getLhsVar ins) with
  | some k => ConstantInt.get ins.getType k
  | none => none

/-- The replacement that the removal of one instruction brings about. -/
def removedBy (OUTb : SMap) (ins : Instruction) : List (String × Operand) :=
  match literalFor OUTb ins, resultName ins with
  | some constVal, some n => [(n, constVal)]
  | _, _ => []

/-- The replacements that the instructions removed from a block bring about. -/
def removedIn (OUTb : SMap) (l : List Instruction) : List (String × Operand) :=
  l.flatMap (removedBy OUTb)

/-- The replacements that the instructions removed from the whole function
bring about, in the order of the rewrite loop. -/
def removed (OUT : Nat → SMap) (F : Function) : List (String × Operand) :=
  (List.range F.blocks.length).flatMap (fun b => removedIn (OUT b) (F.block b))

/-- The rewrite loop selects no instruction for which `ConstantInt::get` fails:
every instruction whose left-hand side holds a concrete constant in the `OUT`
table of its block has type `i32` or `i1`. -/
def IntegerTyped (OUT : Nat → SMap) (F : Function) : Prop :=
  ∀ b, ∀ ins ∈ F.block b, (constantIn (OUT b) (getLhsVar ins)).isSome →
    ins.getType = .i32 ∨ ins.getType = .i1

/-- All replacements of the list put literals in the place of names. -/
def Literals (σ : List (String × Operand)) : Prop := ∀ p ∈ σ, ∀ n, p.2 ≠ .slot n

/-- Every name is the result of at most one instruction of the function. -/
def UniqueNames (F : Function) : Prop := (F.blocks.flatten.filterMap resultName).Nodup

instance (F : Function) : Decidable (UniqueNames F) := by
  unfold UniqueNames; infer_instance

/-! ## Example functions -/

/-- A function with one parameter `%x` that returns `%x + 3`. -/
def paramAdd : Function :=
  ⟨[[.binop "%add" .Add (.slot "%x") (.const 3), .ret (some (.slot "%add"))]]⟩

/-- A function that returns `5 xor 3`. -/
def xorConst : Function :=
  ⟨[[.binop "%r" .Xor (.const 5) (.const 3), .ret (some (.slot "%r"))]]⟩

/-- A function whose second block loops on itself: it loads `%x`, compares the
loaded value with `0`, and stores `2` to `%x`. -/
def loopCmp : Function :=
  ⟨[[.alloca "%x", .store (.const 1) (.slot "%x"), .br 1],
    [.load "%t" (.slot "%x"), .icmp "%c" .ICMP_EQ (.slot "%t") (.const 0),
     .store (.const 2) (.slot "%x"), .br 1]]⟩

/-- A block that stores `5` to `@x`, loads it back, adds `3` and returns the
sum. -/
def straightLine : Function :=
  ⟨[[.store (.const 5) (.slot "@x"), .load "%t1" (.slot "@x"),
     .binop "%t2" .Add (.slot "%t1") (.const 3), .ret (some (.slot "%t2"))]]⟩

/-- The diamond: the entry block stores `1` to the local `%x` and branches on
`%x > 0`; the taken block stores `2`, the other block stores `3`, and both go
to the last block, which loads `%x` and returns it. -/
def diamond : Function :=
  ⟨[[.alloca "%x", .store (.const 1) (.slot "%x"), .load "%t" (.slot "%x"),
     .icmp "%c" .ICMP_SGT (.slot "%t") (.const 0), .condbr (.slot "%c") 1 2],
    [.store (.const 2) (.slot "%x"), .br 3],
    [.store (.const 3) (.slot "%x"), .br 3],
    [.load "%r" (.slot "%x"), .ret (some (.slot "%r"))]]⟩

/-- The diamond whose entry block branches on `%y > 0`, where `%y` is a local
that nothing is stored to. -/
def diamondUnknown : Function :=
  ⟨[[.alloca "%x", .alloca "%y", .store (.const 1) (.slot "%x"), .load "%t" (.slot "%y"),
     .icmp "%c" .ICMP_SGT (.slot "%t") (.const 0), .condbr (.slot "%c") 1 2],
    [.store (.const 2) (.slot "%x"), .br 3],
    [.store (.const 3) (.slot "%x"), .br 3],
    [.load "%r" (.slot "%x"), .ret (some (.slot "%r"))]]⟩

/-- A function that loads from a local that nothing is stored to and returns
the quotient of the loaded value by `-1`. -/
def sdivM1 : Function :=
  ⟨[[.alloca "%x", .load "%v" (.slot "%x"),
     .binop "%q" .SDiv (.slot "%v") (.const (-1)), .ret (some (.slot "%q"))]]⟩

/-- A counting loop followed by a division: the entry block stores `0` to the
local `%i`; the second block adds `1` to `%i` and leaves the loop when the sum
is at least `10`; the last block returns the quotient of `%i` by `-1`. -/
def sdivLoop : Function :=
  ⟨[[.alloca "%i", .store (.const 0) (.slot "%i"), .br 1],
    [.load "%t" (.slot "%i"), .binop "%n" .Add (.slot "%t") (.const 1),
     .store (.slot "%n") (.slot "%i"), .icmp "%c" .ICMP_SGE (.slot "%n") (.const 10),
     .condbr (.slot "%c") 2 1],
    [.load "%u" (.slot "%i"), .binop "%q" .SDiv (.slot "%u") (.const (-1)),
     .ret (some (.slot "%q"))]]⟩

/-- A function that stores `5` to a local, loads it back and returns it. -/
def allocaConst : Function :=
  ⟨[[.alloca "%x", .store (.const 5) (.slot "%x"), .load "%t" (.slot "%x"),
     .ret (some (.slot "%t"))]]⟩

/-- A function that compares with `0` the value loaded from a local that
nothing is stored to, and stores the truth value to the global `@b`. -/
def cmpStore : Function :=
  ⟨[[.alloca "%x", .load "%t" (.slot "%x"), .icmp "%c" .ICMP_EQ (.slot "%t") (.const 0),
     .store (.slot "%c") (.slot "@b"), .ret none]]⟩

/-- A function with a parameter `%p` of type `i1`: the entry block allocates a
local and branches on `%p` to one of two blocks, which both return. -/
def brParam : Function :=
  ⟨[[.alloca "%x", .condbr (.slot "%p") 1 2], [.ret none], [.ret none]]⟩

/-- The same function with the literal `true` for the condition of the
branch. -/
def brTrue : Function :=
  ⟨[[.alloca "%x", .condbr (.bool true) 1 2], [.ret none], [.ret none]]⟩

/-! ## Properties of the scalar meet -/

theorem toInt_of_range {x : Int} (h1 : INT_MIN ≤ x) (h2 : x ≤ INT_MAX) : toInt x = x := by
  unfold INT_MIN at h1; unfold INT_MAX at h2; unfold toInt; omega

theorem meet_min_left (x : Int) : meet INT_MIN x = INT_MIN := by
  simp [meet]

theorem meet_min_right (x : Int) : meet x INT_MIN = INT_MIN := by
  simp [meet]

theorem meet_max_left (x : Int) : meet INT_MAX x = x := by
  unfold meet
  by_cases h : x = INT_MIN
  · simp [h]
  · have : INT_MAX ≠ INT_MIN := by decide
    simp [h, this]

theorem meet_max_right (x : Int) : meet x INT_MAX = x := by
  unfold meet
  have hne : INT_MAX ≠ INT_MIN := by decide
  by_cases h : x = INT_MIN
  · simp [h]
  · by_cases h2 : x = INT_MAX
    · subst h2; simp [hne]
    · simp [h, h2, hne]

theorem meet_const {a b : Int} (ha : isConstant a) (hb : isConstant b) :
    meet a b = if a = b then a else INT_MIN := by
  unfold meet
  simp only [ha.1, ha.2, hb.1, hb.2, or_self, if_false]
  by_cases h : a = b <;> simp [h]

theorem value_cases (a : Int) : a = INT_MIN ∨ a = INT_MAX ∨ isConstant a := by
  unfold isConstant
  by_cases h1 : a = INT_MIN
  · exact Or.inl h1
  · by_cases h2 : a = INT_MAX
    · exact Or.inr (Or.inl h2)
    · exact Or.inr (Or.inr ⟨h1, h2⟩)

theorem meet_comm (a b : Int) : meet a b = meet b a := by
  rcases value_cases a with ha | ha | ha
  · rw [ha, meet_min_left, meet_min_right]
  · rw [ha, meet_max_left, meet_max_right]
  · rcases value_cases b with hb | hb | hb
    · rw [hb, meet_min_left, meet_min_right]
    · rw [hb, meet_max_left, meet_max_right]
    · rw [meet_const ha hb, meet_const hb ha]
      by_cases h : a = b
      · simp [h]
      · have : ¬ b = a := fun e => h e.symm
        simp [h, this]

theorem meet_idem (a : Int) : meet a a = a := by
  rcases value_cases a with ha | ha | ha
  · rw [ha, meet_min_left]
  · rw [ha, meet_max_left]
  · rw [meet_const ha ha]; simp

theorem meet_assoc (a b c : Int) : meet (meet a b) c = meet a (meet b c) := by
  rcases value_cases a with ha | ha | ha
  · rw [ha]; simp only [meet_min_left]
  · rw [ha]; simp only [meet_max_left]
  · rcases value_cases b with hb | hb | hb
    · rw [hb]; simp only [meet_min_left, meet_min_right]
    · rw [hb]; simp only [meet_max_left, meet_max_right]
    · rcases value_cases c with hc | hc | hc
      · rw [hc]; simp only [meet_min_right]
      · rw [hc]; simp only [meet_max_right]
      · rw [meet_const ha hb, meet_const hb hc]
        by_cases h1 : a = b
        · by_cases h2 : b = c
          · simp only [h1, h2, if_true]
          · simp only [h1, h2, if_true, if_false, meet_min_right]
            rw [meet_const hb hc]; simp [h2]
        · by_cases h2 : b = c
          · simp only [h1, h2, if_true, if_false, meet_min_left]
            subst h2
            rw [meet_const ha hb]; simp [h1, meet_min_left]
          · simp only [h1, h2, if_false, meet_min_left, meet_min_right]

/-- C9: the scalar meet of the worklist loop is commutative, idempotent and
associative, for all table values. -/
theorem meet_comm_idem_assoc (a b c : Int) :
    meet a b = meet b a ∧ meet a a = a ∧ meet (meet a b) c = meet a (meet b c) :=
  ⟨meet_comm a b, meet_idem a, meet_assoc a b c⟩

/-- C10: the scalar meet follows the reference rule: `INT_MAX` (Top) is its
identity, `INT_MIN` (Bottom) absorbs, and two concrete constants meet to
themselves when equal and to `INT_MIN` otherwise. -/
theorem meet_reference (x a b : Int) (ha : isConstant a) (hb : isConstant b) :
    meet INT_MAX x = x ∧ meet INT_MIN x = INT_MIN ∧
    meet a b = if a = b then a else INT_MIN :=
  ⟨meet_max_left x, meet_min_left x, meet_const ha hb⟩

theorem meet_reference_witness :
    isConstant 3 ∧ isConstant 4 ∧
    (meet INT_MAX 7 = 7 ∧ meet INT_MIN 7 = INT_MIN ∧
      meet 3 4 = if (3 : Int) = 4 then 3 else INT_MIN) :=
  ⟨by decide, by decide, meet_reference 7 3 4 (by decide) (by decide)⟩

/-! ## The transfer of a binary operation -/

theorem find?_set (m : SMap) (k : String) (v : Int) (k' : String) :
    (m.set k v).find? k' = if k' = k then some v else m.find? k' :=
  lookup_assign k v k' m.entries

theorem find?_set_self (m : SMap) (k : String) (v : Int) : (m.set k v).find? k = some v := by
  simp [find?_set]

theorem find?_transfer_binop (m : SMap) (name : String) (op : BinaryOps) (lhs rhs : Operand)
    (next : Option Instruction) :
    (transfer (.binop name op lhs rhs) next m).map (fun t => t.find? name) =
      (binaryResult op (operandVal m lhs) (operandVal m rhs)).map some := by
  simp only [transfer, Option.map_map]
  cases binaryResult op (operandVal m lhs) (operandVal m rhs) <;> simp [find?_set_self]

/-- C5 (as stated, refuted): the operands `2147483646` and `1` are concrete
constants, yet the transfer of their sum stores `INT_MAX`, the Top sentinel,
which is not a concrete constant. -/
theorem binop_add_hits_sentinel :
    isConstant 2147483646 ∧ isConstant 1 ∧
    (transfer (.binop "%r" .Add (.const 2147483646) (.const 1)) none SMap.empty).map
        (fun t => t.find? "%r") = some (some INT_MAX) ∧
    ¬ isConstant (2147483646 + 1) := by
  decide

/-- C5 (amended): when both operands hold concrete constants `a` and `b`
(neither sentinel), and the exact result lies strictly between the two
sentinels, the transfer stores `a + b` for `Add`, `a - b` for `Sub`, `a * b` for
`Mul` and, when `b` is not zero, the truncating quotient for `SDiv`. -/
theorem binop_fold (m : SMap) (name : String) (lhs rhs : Operand)
    (next : Option Instruction) (a b : Int)
    (hl : operandVal m lhs = a) (hr : operandVal m rhs = b)
    (ha : isConstant a) (hb : isConstant b) :
    (INT_MIN < a + b → a + b < INT_MAX →
      (transfer (.binop name .Add lhs rhs) next m).map (fun t => t.find? name)
        = some (some (a + b))) ∧
    (INT_MIN < a - b → a - b < INT_MAX →
      (transfer (.binop name .Sub lhs rhs) next m).map (fun t => t.find? name)
        = some (some (a - b))) ∧
    (INT_MIN < a * b → a * b < INT_MAX →
      (transfer (.binop name .Mul lhs rhs) next m).map (fun t => t.find? name)
        = some (some (a * b))) ∧
    (b ≠ 0 → INT_MIN < Int.tdiv a b → Int.tdiv a b < INT_MAX →
      (transfer (.binop name .SDiv lhs rhs) next m).map (fun t => t.find? name)
        = some (some (Int.tdiv a b))) := by
  have hna : ¬ a = INT_MIN := ha.1
  have hnb : ¬ b = INT_MIN := hb.1
  refine ⟨?_, ?_, ?_, ?_⟩
  · intro h1 h2
    rw [find?_transfer_binop, hl, hr]
    simp [binaryResult, computedVal, hna, hnb, toInt_of_range (le_of_lt h1) (le_of_lt h2)]
  · intro h1 h2
    rw [find?_transfer_binop, hl, hr]
    simp [binaryResult, computedVal, hna, hnb, toInt_of_range (le_of_lt h1) (le_of_lt h2)]
  · intro h1 h2
    rw [find?_transfer_binop, hl, hr]
    simp [binaryResult, computedVal, hna, hnb, toInt_of_range (le_of_lt h1) (le_of_lt h2)]
  · intro h0 h1 h2
    rw [find?_transfer_binop, hl, hr]
    simp [binaryResult, computedVal, hna, hnb, h0, toInt_of_range (le_of_lt h1) (le_of_lt h2)]

theorem binop_fold_witness :
    (transfer (.binop "%r" .Add (.slot "%a") (.const 3)) none
        (SMap.empty.set "%a" 5)).map (fun t => t.find? "%r") = some (some (5 + 3)) ∧
    (transfer (.binop "%r" .SDiv (.slot "%a") (.const 3)) none
        (SMap.empty.set "%a" 5)).map (fun t => t.find? "%r") = some (some (Int.tdiv 5 3)) :=
  have h := binop_fold (SMap.empty.set "%a" 5) "%r" (.slot "%a") (.const 3) none 5 3
    (by decide) (by decide) (by decide) (by decide)
  ⟨h.1 (by decide) (by decide), h.2.2.2 (by decide) (by decide) (by decide)⟩

/-- C8: a signed division whose divisor reads as the constant `0` stores `0`
under its name when the dividend is not `INT_MIN` (Bottom), and `INT_MIN` when
the dividend is `INT_MIN`; no division is performed. -/
theorem sdiv_by_zero (m : SMap) (name : String) (lhs rhs : Operand)
    (next : Option Instruction) (hr : operandVal m rhs = 0) :
    (operandVal m lhs ≠ INT_MIN →
      (transfer (.binop name .SDiv lhs rhs) next m).map (fun t => t.find? name) = some (some 0)) ∧
    (operandVal m lhs = INT_MIN →
      (transfer (.binop name .SDiv lhs rhs) next m).map (fun t => t.find? name)
        = some (some INT_MIN)) := by
  have h0 : (0 : Int) ≠ INT_MIN := by decide
  constructor
  · intro h
    rw [find?_transfer_binop, hr]
    simp [binaryResult, computedVal, h, h0]
  · intro h
    rw [find?_transfer_binop, hr, h]
    simp [binaryResult, computedVal]

theorem sdiv_by_zero_witness :
    (transfer (.binop "%q" .SDiv (.const 7) (.const 0)) none SMap.empty).map
        (fun t => t.find? "%q") = some (some 0) ∧
    (transfer (.binop "%q" .SDiv (.slot "%a") (.const 0)) none
        (SMap.empty.set "%a" INT_MIN)).map (fun t => t.find? "%q") = some (some INT_MIN) :=
  ⟨(sdiv_by_zero SMap.empty "%q" (.const 7) (.const 0) none (by decide)).1 (by decide),
   (sdiv_by_zero (SMap.empty.set "%a" INT_MIN) "%q" (.slot "%a") (.const 0) none
      (by decide)).2 (by decide)⟩

/-! ## The pass on the example functions -/

/-- C1 (failing input): on `paramAdd` the pass ends after one iteration and
leaves the single instruction `ret 3`; called with `%x = 1` the original
function returns `4` and the rewritten one returns `3`. -/
theorem runOnFunction_paramAdd_changes_result :
    (runOnFunction paramAdd 1).map (fun r => r.2) = some ⟨[[.ret (some (.const 3))]]⟩ ∧
    run paramAdd 2 [("%x", 1)] [] = some ⟨some 4, []⟩ ∧
    (runOnFunction paramAdd 1).map (fun r => run r.2 2 [("%x", 1)] []) =
      some (some ⟨some 3, []⟩) := by
  decide

/-- C3 (failing input): on `loopCmp` the second block is processed three times;
the value stored under `%c` in its `OUT` table is `INT_MIN` (Bottom) after the
first processing and the constant `2` after the second and the third. -/
theorem loopCmp_out_rises :
    ((runLoop loopCmp 2 (initState loopCmp)).OUT 1).find? "%c" = some INT_MIN ∧
    ((runLoop loopCmp 3 (initState loopCmp)).OUT 1).find? "%c" = some 2 ∧
    ((runLoop loopCmp 4 (initState loopCmp)).OUT 1).find? "%c" = some 2 ∧
    (runLoop loopCmp 1 (initState loopCmp)).q = [1] ∧
    (runLoop loopCmp 2 (initState loopCmp)).q = [1] ∧
    (runLoop loopCmp 3 (initState loopCmp)).q = [1] ∧
    (runLoop loopCmp 4 (initState loopCmp)).q = [] := by
  decide

/-- C6 (failing input): the parameter `%x` has no entry in the table; reading it
as an operand gives `0`, not `INT_MIN`, so `%x + 3` is recorded as the constant
`3`, and a comparison `%x == 0` before a conditional branch as the constant
`1`. -/
theorem absent_operand_reads_zero :
    SMap.empty.find? "%x" = none ∧
    operandVal SMap.empty (.slot "%x") = 0 ∧
    (transfer (.binop "%add" .Add (.slot "%x") (.const 3)) none SMap.empty).map
        (fun t => t.find? "%add") = some (some 3) ∧
    (transfer (.icmp "%c" .ICMP_EQ (.slot "%x") (.const 0)) (some (.condbr (.slot "%c") 1 2))
      SMap.empty).map (fun t => t.find? "%c") = some (some 1) ∧
    (runOnFunction paramAdd 1).map (fun r => (r.1 0).find? "%add") = some (some 3) := by
  decide

/-- C7 (failing input): the transfer of `xor 5, 3` stores the constant `0`, not
`INT_MIN`; the pass rewrites `xorConst` to `ret 0` although the function
returns `6`; and an instruction without a case of its own, such as a call,
leaves the table as it is, so its result has no entry at all. -/
theorem unmodelled_result_not_bottom :
    (transfer (.binop "%r" .Xor (.const 5) (.const 3)) none SMap.empty).map
        (fun t => t.find? "%r") = some (some 0) ∧
    (runOnFunction xorConst 1).map (fun r => r.2) = some ⟨[[.ret (some (.const 0))]]⟩ ∧
    run xorConst 2 [] [] = some ⟨some 6, []⟩ ∧
    (transfer (.other (some "%v") "call" [] []) none SMap.empty).map
        (fun t => t.find? "%v") = some none := by
  decide

/-! ## Tables: further lemmas -/

theorem mem_of_lookup {k : String} {v : Int} {l : List (String × Int)}
    (h : lookup k l = some v) : (k, v) ∈ l := by
  induction l with
  | nil => simp [lookup] at h
  | cons p t ih =>
    simp only [lookup] at h
    split at h
    · rename_i e
      have hv : p.2 = v := Option.some.inj h
      have : p = (k, v) := by rw [e, ← hv]
      rw [this]; exact List.mem_cons_self _ _
    · exact List.mem_cons_of_mem _ (ih h)

theorem lookup_of_mem {p : String × Int} {l : List (String × Int)}
    (ha : Ascending l) (h : p ∈ l) : lookup p.1 l = some p.2 := by
  induction l with
  | nil => simp at h
  | cons q t ih =>
    have hq := List.pairwise_cons.1 ha
    rcases List.mem_cons.1 h with h | h
    · subst h; simp [lookup]
    · have hne : p.1 ≠ q.1 := fun e => keyLt_ne (hq.1 p h) e.symm
      simp only [lookup, hne, if_false]
      exact ih hq.2 h

theorem assign_eq_self {k : String} {v : Int} {l : List (String × Int)}
    (ha : Ascending l) (h : lookup k l = some v) : assign k v l = l := by
  induction l with
  | nil => simp [lookup] at h
  | cons p t ih =>
    have hp := List.pairwise_cons.1 ha
    simp only [lookup] at h
    simp only [assign]
    by_cases e : k = p.1
    · subst e
      simp only [if_true] at h
      have hv : p.2 = v := Option.some.inj h
      simp only [keyLt_irrefl, if_true]
      rw [← hv]; simp
    · simp only [e, if_false] at h
      have hmem := mem_of_lookup h
      have hlt : keyLt p.1 k = true := hp.1 _ hmem
      have hnlt : ¬ keyLt k p.1 = true := by
        intro h2
        have := keyLt_trans hlt h2
        rw [keyLt_irrefl] at this
        exact Bool.noConfusion this
      simp [hnlt, e, ih hp.2 h]

namespace SMap

theorem find?_erase (m : SMap) (k k' : String) :
    (m.erase k).find? k' = if k' = k then none else m.find? k' :=
  lookup_remove k k' m.entries

theorem find?_touch (m : SMap) (k k' : String) :
    (m.touch k).find? k' = if k' = k then some (m.get k) else m.find? k' := by
  unfold touch get
  cases h : m.find? k with
  | some v =>
    by_cases e : k' = k
    · simp [e, h]
    · simp [e]
  | none =>
    simp only [ConstantPropagation.find?_set, Option.getD_none]

theorem set_eq_self {m : SMap} {k : String} {v : Int} (h : m.find? k = some v) :
    m.set k v = m :=
  ext_entries (assign_eq_self m.ascending h)

theorem find?_of_mem {m : SMap} {p : String × Int} (h : p ∈ m.entries) :
    m.find? p.1 = some p.2 :=
  lookup_of_mem m.ascending h

theorem find?_empty (k : String) : SMap.empty.find? k = none := rfl

end SMap

theorem compareMaps_self (m : SMap) : compareMaps m m = true := by
  unfold compareMaps
  simp only [Bool.and_eq_true, List.all_eq_true, decide_eq_true_eq]
  exact ⟨fun p hp => SMap.find?_of_mem hp, fun p hp => by rw [SMap.find?_of_mem hp]; rfl⟩

/-! ## The height of a table entry -/

theorem rank_some (v : Int) :
    rank (some v) = if v = INT_MIN then 0 else if v = INT_MAX then 2 else 1 := rfl

theorem rank_some_lt (v : Int) : rank (some v) < 3 := by
  rw [rank_some]; split_ifs <;> omega

theorem rank_meet (c v : Int) :
    rank (some (meet c v)) ≤ rank (some c) ∧
    (meet c v ≠ c → rank (some (meet c v)) < rank (some c)) := by
  have hne : INT_MAX ≠ INT_MIN := by decide
  rcases value_cases c with hc | hc | hc
  · rw [hc, meet_min_left]; simp
  · rw [hc, meet_max_left]
    constructor
    · simp only [rank_some, hne, if_false, if_true]; split_ifs <;> omega
    · intro h
      simp only [rank_some, hne, if_false, if_true, h]
      split_ifs <;> omega
  · rcases value_cases v with hv | hv | hv
    · rw [hv, meet_min_right]
      simp [rank_some, hc.1, hc.2]
    · rw [hv, meet_max_right]; simp
    · rw [meet_const hc hv]
      by_cases e : c = v
      · simp [e]
      · simp [e, rank_some, hc.1, hc.2]

theorem phi_le {U : List String} {m' m : SMap} (h : Below m' m) : phi U m' ≤ phi U m := by
  unfold phi
  induction U with
  | nil => simp
  | cons k t ih =>
    simp only [List.map_cons, List.sum_cons]
    have := h k
    omega

theorem phi_lt {U : List String} {m' m : SMap} (h : Below m' m) {k : String} (hk : k ∈ U)
    (hlt : rank (m'.find? k) < rank (m.find? k)) : phi U m' < phi U m := by
  induction U with
  | nil => simp at hk
  | cons k0 t ih =>
    have htail : phi t m' ≤ phi t m := phi_le h
    unfold phi at *
    simp only [List.map_cons, List.sum_cons]
    rcases List.mem_cons.1 hk with e | hk'
    · subst e; omega
    · have := ih hk'
      have := h k0
      omega

theorem below_refl (m : SMap) : Below m m := fun _ => le_rfl

theorem below_trans {a b c : SMap} (h1 : Below a b) (h2 : Below b c) : Below a c :=
  fun k => le_trans (h1 k) (h2 k)

theorem lowered_refl (U : List String) (m : SMap) : Lowered U m m :=
  ⟨below_refl m, Or.inl rfl⟩

theorem lowered_trans {U : List String} {a b c : SMap}
    (h1 : Lowered U a b) (h2 : Lowered U b c) : Lowered U a c := by
  refine ⟨below_trans h1.1 h2.1, ?_⟩
  rcases h1.2 with e1 | l1
  · subst e1; exact h2.2
  · right
    exact lt_of_lt_of_le l1 (phi_le h2.1)

theorem meetEntry_find? (m : SMap) (mp : String × Int) (k : String) :
    (meetEntry m mp).find? k =
      if k = mp.1 then some (meet (m.get mp.1) mp.2) else m.find? k := by
  unfold meetEntry
  rw [find?_set, SMap.find?_touch]
  by_cases e : k = mp.1 <;> simp [e]

theorem meetEntry_lowered {U : List String} (m : SMap) (mp : String × Int) (h : mp.1 ∈ U) :
    Lowered U (meetEntry m mp) m := by
  have hb : Below (meetEntry m mp) m := by
    intro k
    rw [meetEntry_find?]
    by_cases e : k = mp.1
    · subst e
      simp only [if_true]
      cases hf : m.find? mp.1 with
      | none => exact le_of_lt (rank_some_lt _)
      | some c =>
        have : m.get mp.1 = c := by simp [SMap.get, hf]
        rw [this]; exact (rank_meet c mp.2).1
    · simp [e]
  refine ⟨hb, ?_⟩
  cases hf : m.find? mp.1 with
  | none =>
    right
    apply phi_lt hb h
    rw [meetEntry_find?, hf]
    simpa using rank_some_lt _
  | some c =>
    have hg : m.get mp.1 = c := by simp [SMap.get, hf]
    by_cases e : meet c mp.2 = c
    · left
      unfold meetEntry
      have ht : m.touch mp.1 = m := by simp [SMap.touch, hf]
      rw [ht, hg, e]
      exact SMap.set_eq_self hf
    · right
      apply phi_lt hb h
      rw [meetEntry_find?, hf, hg]
      simpa using (rank_meet c mp.2).2 e

theorem meetEntry_keysIn {U : List String} {m : SMap} (mp : String × Int)
    (hm : KeysIn U m) (h : mp.1 ∈ U) : KeysIn U (meetEntry m mp) := by
  intro k hk
  rw [meetEntry_find?] at hk
  by_cases e : k = mp.1
  · rw [e]; exact h
  · simp only [e, if_false] at hk
    exact hm k hk

theorem foldl_meetEntry {U : List String} (l : List (String × Int))
    (hl : ∀ p ∈ l, p.1 ∈ U) (m : SMap) (hm : KeysIn U m) :
    Lowered U (l.foldl meetEntry m) m ∧ KeysIn U (l.foldl meetEntry m) := by
  induction l generalizing m with
  | nil => exact ⟨lowered_refl U m, hm⟩
  | cons p t ih =>
    simp only [List.foldl_cons]
    have hp : p.1 ∈ U := hl p (List.mem_cons_self _ _)
    have h1 := ih (fun q hq => hl q (List.mem_cons_of_mem _ hq)) (meetEntry m p)
      (meetEntry_keysIn p hm hp)
    exact ⟨lowered_trans h1.1 (meetEntry_lowered m p hp), h1.2⟩

theorem keysIn_entries {U : List String} {m : SMap} (hm : KeysIn U m) :
    ∀ p ∈ m.entries, p.1 ∈ U := by
  intro p hp
  apply hm
  rw [SMap.find?_of_mem hp]; rfl

theorem meetPreds_lowered {U : List String} (F : Function) (OUT : Nat → SMap) (block : Nat)
    (hOUT : ∀ b, KeysIn U (OUT b)) (m : SMap) (hm : KeysIn U m) :
    Lowered U (meetPreds F OUT block m) m ∧ KeysIn U (meetPreds F OUT block m) := by
  unfold meetPreds
  generalize predecessors F block = ps
  induction ps generalizing m with
  | nil => exact ⟨lowered_refl U m, hm⟩
  | cons p t ih =>
    simp only [List.foldl_cons]
    have h0 := foldl_meetEntry (OUT p).entries (keysIn_entries (hOUT p)) m hm
    have h1 := ih _ h0.2
    exact ⟨lowered_trans h1.1 h0.1, h1.2⟩

/-! ## The instruction loop on a block whose terminator comes last -/

theorem processIns_congr (b : Nat) (ins : Instruction) (next : Option Instruction)
    {w w' : Work} (h : w.outMapTemp = w'.outMapTemp) (ht : w.trapped = w'.trapped) :
    (processIns b ins next w).outMapTemp = (processIns b ins next w').outMapTemp ∧
    (processIns b ins next w).trapped = (processIns b ins next w').trapped := by
  cases ins with
  | condbr cond t f => simp [processIns, h, ht]
  | br dest => simp [processIns, h, ht]
  | ret v => simp [processIns, h, ht]
  | _ => simp only [processIns, h, ht]; generalize transfer _ _ _ = r; cases r <;> simp [h, ht]

theorem processInstrs_congr (b : Nat) (bb : List Instruction) :
    ∀ {w w' : Work}, w.outMapTemp = w'.outMapTemp → w.trapped = w'.trapped →
      (processInstrs b bb w).outMapTemp = (processInstrs b bb w').outMapTemp ∧
      (processInstrs b bb w).trapped = (processInstrs b bb w').trapped := by
  induction bb with
  | nil =>
    intro w w' h ht
    exact ⟨by simpa [processInstrs] using h, by simpa [processInstrs] using ht⟩
  | cons ins rest ih =>
    intro w w' h ht
    have hc := processIns_congr b ins rest.head? h ht
    simp only [processInstrs]
    rw [← hc.2]
    split
    · exact hc
    · exact ih hc.1 hc.2

theorem processInstrs_outMapTemp (b : Nat) (bb : List Instruction) (w : Work)
    (hw : w.trapped = false) :
    (processInstrs b bb w).outMapTemp = candOut b bb w.outMapTemp :=
  (@processInstrs_congr b bb w
    { outMapTemp := w.outMapTemp, OUT := fun _ => SMap.empty, q := [], trapped := false }
    rfl hw).1

theorem processIns_nonbranch (b : Nat) {ins : Instruction} (next : Option Instruction)
    (w : Work) (h : isBranchOrRet ins = false) :
    (processIns b ins next w).OUT = w.OUT ∧ (processIns b ins next w).q = w.q ∧
    ((processIns b ins next w).trapped = false → w.trapped = false) := by
  cases ins <;> simp [isBranchOrRet] at h <;> simp only [processIns] <;>
    (generalize transfer _ _ _ = r; cases r <;> simp)

theorem processIns_branch (b : Nat) {ins : Instruction} (next : Option Instruction)
    (w : Work) (h : isBranchOrRet ins = true) :
    (processIns b ins next w).OUT = upd w.OUT b (processIns b ins next w).outMapTemp ∧
    ∃ pushes, (processIns b ins next w).q = w.q ++ pushes ∧ pushes.length ≤ 2 ∧
      (compareMaps (w.OUT b) (processIns b ins next w).outMapTemp = true → pushes = []) := by
  cases ins with
  | br dest =>
    refine ⟨rfl, ?_⟩
    simp only [processIns]
    by_cases hc : compareMaps (w.OUT b) w.outMapTemp = true
    · exact ⟨[], by simp [hc], by simp, fun _ => rfl⟩
    · exact ⟨[dest], by simp [hc], by simp, fun h2 => absurd h2 hc⟩
  | condbr cond t f =>
    refine ⟨rfl, ?_⟩
    simp only [processIns]
    by_cases hc : compareMaps (w.OUT b)
        ((w.outMapTemp.touch (getLhsVarFromValue cond)).erase (getLhsVarFromValue cond)) = true
    · exact ⟨[], by simp [hc], by simp, fun _ => rfl⟩
    · by_cases h1 : w.outMapTemp.get (getLhsVarFromValue cond) = 1
      · exact ⟨[t], by simp [hc, h1], by simp, fun h2 => absurd h2 hc⟩
      · by_cases h0 : w.outMapTemp.get (getLhsVarFromValue cond) = 0
        · exact ⟨[f], by simp [hc, h0], by simp, fun h2 => absurd h2 hc⟩
        · exact ⟨[t, f], by simp [hc, h1, h0], by simp, fun h2 => absurd h2 hc⟩
  | ret v => exact ⟨rfl, [], by simp [processIns], by simp, fun _ => rfl⟩
  | alloca _ => simp [isBranchOrRet] at h
  | load _ _ => simp [isBranchOrRet] at h
  | store _ _ => simp [isBranchOrRet] at h
  | binop _ _ _ _ => simp [isBranchOrRet] at h
  | icmp _ _ _ _ => simp [isBranchOrRet] at h
  | other _ _ _ _ => simp [isBranchOrRet] at h

theorem processInstrs_singleton (b : Nat) (ins : Instruction) (w : Work) :
    processInstrs b [ins] w = processIns b ins none w := by
  simp only [processInstrs, List.head?_nil]
  split <;> rfl

/-- An instruction loop that traps leaves the `OUT` tables and the queue as
they were, when no branch or return stands before the last instruction. -/
theorem processInstrs_trapped (b : Nat) (bb : List Instruction) :
    (∀ ins ∈ bb.dropLast, isBranchOrRet ins = false) → ∀ w : Work, w.trapped = false →
    (processInstrs b bb w).trapped = true →
      (processInstrs b bb w).OUT = w.OUT ∧ (processInstrs b bb w).q = w.q := by
  induction bb with
  | nil =>
    intro _ w hw ht
    simp [processInstrs, hw] at ht
  | cons ins rest ih =>
    intro hwf w hw ht
    cases rest with
    | nil =>
      rw [processInstrs_singleton] at ht ⊢
      cases hb : isBranchOrRet ins with
      | false =>
        exact ⟨(processIns_nonbranch b none w hb).1, (processIns_nonbranch b none w hb).2.1⟩
      | true =>
        exfalso
        cases ins <;> simp [isBranchOrRet] at hb <;> simp [processIns, hw] at ht
    | cons x rest' =>
      have hins : isBranchOrRet ins = false :=
        hwf ins (by simp [List.dropLast])
      have hrest : ∀ i ∈ (x :: rest').dropLast, isBranchOrRet i = false := by
        intro i hi
        apply hwf
        simp only [List.dropLast_cons₂, List.mem_cons]
        exact Or.inr hi
      have hnb := processIns_nonbranch b (some x) w hins
      simp only [processInstrs, List.head?_cons] at ht ⊢
      by_cases h1 : (processIns b ins (some x) w).trapped = true
      · rw [if_pos h1]
        exact ⟨hnb.1, hnb.2.1⟩
      · rw [if_neg h1] at ht ⊢
        have h1' : (processIns b ins (some x) w).trapped = false := by simpa using h1
        have := ih hrest _ h1' ht
        rw [hnb.1, hnb.2.1] at this
        exact this

theorem processInstrs_terminatorsLast (b : Nat) (bb : List Instruction) :
    (∀ ins ∈ bb.dropLast, isBranchOrRet ins = false) → ∀ w : Work,
    (processInstrs b bb w).trapped = false →
    (storesOut bb = false →
      (processInstrs b bb w).OUT = w.OUT ∧ (processInstrs b bb w).q = w.q) ∧
    (storesOut bb = true →
      (processInstrs b bb w).OUT = upd w.OUT b (processInstrs b bb w).outMapTemp ∧
      ∃ pushes, (processInstrs b bb w).q = w.q ++ pushes ∧ pushes.length ≤ 2 ∧
        (compareMaps (w.OUT b) (processInstrs b bb w).outMapTemp = true → pushes = [])) := by
  induction bb with
  | nil =>
    intro _ w _
    exact ⟨fun _ => ⟨rfl, rfl⟩, fun h => by simp [storesOut] at h⟩
  | cons ins rest ih =>
    intro hwf w ht
    cases rest with
    | nil =>
      rw [processInstrs_singleton] at ht ⊢
      have hs : storesOut [ins] = isBranchOrRet ins := by simp [storesOut]
      rw [hs]
      constructor
      · intro h
        exact ⟨(processIns_nonbranch b none w h).1, (processIns_nonbranch b none w h).2.1⟩
      · intro h
        exact processIns_branch b none w h
    | cons x rest' =>
      have hins : isBranchOrRet ins = false :=
        hwf ins (by simp [List.dropLast])
      have hrest : ∀ i ∈ (x :: rest').dropLast, isBranchOrRet i = false := by
        intro i hi
        apply hwf
        simp only [List.dropLast_cons₂, List.mem_cons]
        exact Or.inr hi
      have hs : storesOut (ins :: x :: rest') = storesOut (x :: rest') := by
        simp [storesOut, List.getLast?_cons_cons]
      rw [hs]
      have hnb := processIns_nonbranch b (some x) w hins
      simp only [processInstrs, List.head?_cons] at ht ⊢
      by_cases h1 : (processIns b ins (some x) w).trapped = true
      · rw [if_pos h1, h1] at ht
        exact absurd ht (by simp)
      · rw [if_neg h1] at ht ⊢
        have := ih hrest _ ht
        rw [hnb.1, hnb.2.1] at this
        exact this

/-! ## Keys stay within the names of the function -/

theorem keysIn_set {U : List String} {m : SMap} {k : String} (v : Int)
    (hm : KeysIn U m) (hk : k ∈ U) : KeysIn U (m.set k v) := by
  intro k' h
  rw [find?_set] at h
  by_cases e : k' = k
  · rw [e]; exact hk
  · simp only [e, if_false] at h; exact hm k' h

theorem keysIn_touch {U : List String} {m : SMap} {k : String}
    (hm : KeysIn U m) (hk : k ∈ U) : KeysIn U (m.touch k) := by
  intro k' h
  rw [SMap.find?_touch] at h
  by_cases e : k' = k
  · rw [e]; exact hk
  · simp only [e, if_false] at h; exact hm k' h

theorem keysIn_erase {U : List String} {m : SMap} (k : String)
    (hm : KeysIn U m) : KeysIn U (m.erase k) := by
  intro k' h
  rw [SMap.find?_erase] at h
  by_cases e : k' = k
  · simp [e] at h
  · simp only [e, if_false] at h; exact hm k' h

theorem keysIn_copy {U : List String} {m : SMap} {dst src : String}
    (hm : KeysIn U m) (hd : dst ∈ U) (hs : src ∈ U) : KeysIn U (copy m dst src) :=
  keysIn_set _ (keysIn_touch hm hs) hd

theorem keysIn_operandTouch {U : List String} {m : SMap} {o : Operand}
    (hm : KeysIn U m) (ho : getLhsVarFromValue o ∈ U) : KeysIn U (operandTouch m o) := by
  cases o with
  | const v => exact hm
  | bool v => exact hm
  | slot name => exact keysIn_touch hm ho

theorem keysIn_transfer {U : List String} {m : SMap} (ins : Instruction)
    (next : Option Instruction) (hm : KeysIn U m) (hn : ∀ k ∈ names ins, k ∈ U) :
    ∀ t, transfer ins next m = some t → KeysIn U t := by
  intro t ht
  cases ins with
  | store value ptr =>
    have hp : getLhsVarFromValue ptr ∈ U := hn _ (by simp [names, operands])
    cases value with
    | const c =>
      simp only [transfer, Option.some.injEq] at ht
      rw [← ht]; exact keysIn_set _ hm hp
    | bool c =>
      simp only [transfer, Option.some.injEq] at ht
      rw [← ht]; exact keysIn_set _ hm hp
    | slot v =>
      have hv : v ∈ U := hn _ (by simp [names, operands, getLhsVarFromValue])
      simp only [transfer, Option.some.injEq] at ht
      rw [← ht]; exact keysIn_copy hm hp hv
  | load name ptr =>
    simp only [transfer, Option.some.injEq] at ht
    rw [← ht]
    exact keysIn_copy hm (hn _ (by simp [names, getLhsVar]))
      (hn _ (by simp [names, operands]))
  | binop name op lhs rhs =>
    have h1 : getLhsVarFromValue lhs ∈ U := hn _ (by simp [names, operands])
    have h2 : getLhsVarFromValue rhs ∈ U := hn _ (by simp [names, operands])
    have h0 : name ∈ U := hn _ (by simp [names, getLhsVar])
    simp only [transfer, Option.map_eq_some'] at ht
    obtain ⟨v, _, hv⟩ := ht
    rw [← hv]
    exact keysIn_set _ (keysIn_operandTouch (keysIn_operandTouch hm h1) h2) h0
  | icmp name pred lhs rhs =>
    have h1 : getLhsVarFromValue lhs ∈ U := hn _ (by simp [names, operands])
    have h2 : getLhsVarFromValue rhs ∈ U := hn _ (by simp [names, operands])
    have h0 : name ∈ U := hn _ (by simp [names, getLhsVar])
    have hT := keysIn_operandTouch (keysIn_operandTouch hm h1) h2
    simp only [transfer, Option.some.injEq] at ht
    rw [← ht]
    split_ifs
    all_goals first | exact hT | exact keysIn_set _ hT h0 | exact keysIn_set _ (keysIn_set _ hT h0) h0
  | alloca _ => simp only [transfer, Option.some.injEq] at ht; rw [← ht]; exact hm
  | br _ => simp only [transfer, Option.some.injEq] at ht; rw [← ht]; exact hm
  | condbr _ _ _ => simp only [transfer, Option.some.injEq] at ht; rw [← ht]; exact hm
  | ret _ => simp only [transfer, Option.some.injEq] at ht; rw [← ht]; exact hm
  | other _ _ _ _ => simp only [transfer, Option.some.injEq] at ht; rw [← ht]; exact hm

theorem keysIn_processIns {U : List String} (b : Nat) (ins : Instruction)
    (next : Option Instruction) (w : Work) (hm : KeysIn U w.outMapTemp)
    (hn : ∀ k ∈ names ins, k ∈ U) : KeysIn U (processIns b ins next w).outMapTemp := by
  have hdef : ∀ i : Instruction, (∀ k ∈ names i, k ∈ U) →
      KeysIn U (match transfer i next w.outMapTemp with
        | some outMapTemp => { w with outMapTemp := outMapTemp }
        | none => { w with trapped := true }).outMapTemp := by
    intro i hi
    cases ht : transfer i next w.outMapTemp with
    | none => exact hm
    | some t => exact keysIn_transfer i next hm hi t ht
  cases ins with
  | condbr cond t f => exact keysIn_erase _ (keysIn_touch hm (hn _ (by simp [names, operands])))
  | br _ => exact hm
  | ret _ => exact hm
  | store value ptr => exact hdef _ hn
  | load name ptr => exact hdef _ hn
  | binop name op lhs rhs => exact hdef _ hn
  | icmp name pred lhs rhs => exact hdef _ hn
  | alloca _ => exact hdef _ hn
  | other _ _ _ _ => exact hdef _ hn

theorem keysIn_processInstrs {U : List String} (b : Nat) (bb : List Instruction) :
    ∀ w : Work, KeysIn U w.outMapTemp → (∀ ins ∈ bb, ∀ k ∈ names ins, k ∈ U) →
      KeysIn U (processInstrs b bb w).outMapTemp := by
  induction bb with
  | nil => intro w hm _; exact hm
  | cons ins rest ih =>
    intro w hm hn
    have h1 := keysIn_processIns b ins rest.head? w hm (hn ins (List.mem_cons_self _ _))
    simp only [processInstrs]
    split
    · exact h1
    · exact ih _ h1 (fun i hi => hn i (List.mem_cons_of_mem _ hi))

theorem keysIn_candOut {U : List String} (b : Nat) (bb : List Instruction) (m : SMap)
    (hm : KeysIn U m) (hn : ∀ ins ∈ bb, ∀ k ∈ names ins, k ∈ U) :
    KeysIn U (candOut b bb m) :=
  keysIn_processInstrs b bb _ hm hn

theorem mem_block {F : Function} {b : Nat} {ins : Instruction} (h : ins ∈ F.block b) :
    F.block b ∈ F.blocks := by
  unfold Function.block at *
  by_cases hb : b < F.blocks.length
  · rw [List.getD_eq_getElem _ _ hb]
    exact List.getElem_mem hb
  · rw [List.getD_eq_default _ _ (by omega)] at h
    simp at h

theorem names_in_universe (F : Function) (b : Nat) :
    ∀ ins ∈ F.block b, ∀ k ∈ names ins, k ∈ allNames F := by
  intro ins hins k hk
  unfold allNames
  rw [List.mem_flatMap]
  exact ⟨ins, List.mem_flatten.2 ⟨F.block b, mem_block hins, hins⟩, hk⟩

theorem keysIn_empty (U : List String) : KeysIn U SMap.empty := by
  intro k h; simp [SMap.find?_empty] at h

/-! ## Termination of the worklist loop -/

theorem sum_map_le {L : List Nat} {f g : Nat → Nat} (h : ∀ x ∈ L, f x ≤ g x) :
    (L.map f).sum ≤ (L.map g).sum := by
  induction L with
  | nil => simp
  | cons a t ih =>
    simp only [List.map_cons, List.sum_cons]
    have := h a (List.mem_cons_self _ _)
    have := ih (fun x hx => h x (List.mem_cons_of_mem _ hx))
    omega

theorem sum_map_lt {L : List Nat} {f g : Nat → Nat} (h : ∀ x ∈ L, f x ≤ g x)
    {b : Nat} (hb : b ∈ L) (hlt : f b < g b) : (L.map f).sum < (L.map g).sum := by
  induction L with
  | nil => simp at hb
  | cons a t ih =>
    simp only [List.map_cons, List.sum_cons]
    have ha := h a (List.mem_cons_self _ _)
    have ht : ∀ x ∈ t, f x ≤ g x := fun x hx => h x (List.mem_cons_of_mem _ hx)
    rcases List.mem_cons.1 hb with e | hb'
    · subst e
      have := sum_map_le ht
      omega
    · have := ih ht hb'
      omega

theorem upd_same (T : Nat → SMap) (b : Nat) (m : SMap) : upd T b m b = m := by
  simp [upd]

theorem upd_other (T : Nat → SMap) {b b' : Nat} (m : SMap) (h : b' ≠ b) :
    upd T b m b' = T b' := by
  simp [upd, h]

theorem storesOut_lt {F : Function} {b : Nat} (h : storesOut (F.block b) = true) :
    b < F.blocks.length := by
  by_contra hb
  have : F.block b = [] := by
    unfold Function.block
    exact List.getD_eq_default _ _ (by omega)
  rw [this] at h
  simp [storesOut] at h

theorem terminatorsLast_block {F : Function} (hwf : TerminatorsLast F) (b : Nat) :
    ∀ ins ∈ (F.block b).dropLast, isBranchOrRet ins = false := by
  by_cases hb : b < F.blocks.length
  · apply hwf
    unfold Function.block
    rw [List.getD_eq_getElem _ _ hb]
    exact List.getElem_mem hb
  · have : F.block b = [] := by
      unfold Function.block
      exact List.getD_eq_default _ _ (by omega)
    rw [this]; simp

/-- One iteration on a non-empty queue in which no instruction traps decreases
the measure and keeps all keys within the names of the function. -/
theorem step_decreases (F : Function) (hwf : TerminatorsLast F) (s : State)
    (hinv : KeysInv F s) (b : Nat) (q' : List Nat) (hq : s.q = b :: q')
    (hnt : (step F s).trapped = false) :
    loopMeasure F (step F s) < loopMeasure F s ∧ KeysInv F (step F s) := by
  have hOUT : ∀ x, KeysIn (allNames F) (s.OUT x) := fun x => (hinv x).2
  obtain ⟨hL, hK⟩ := meetPreds_lowered F s.OUT b hOUT (s.IN b) (hinv b).1
  have hcandK : KeysIn (allNames F) (candOut b (F.block b) (meetPreds F s.OUT b (s.IN b))) :=
    keysIn_candOut b _ _ hK (names_in_universe F b)
  have hstep : step F s =
      { IN := upd s.IN b (meetPreds F s.OUT b (s.IN b)),
        OUT := (processInstrs b (F.block b)
          { outMapTemp := meetPreds F s.OUT b (s.IN b), OUT := s.OUT, q := q',
            trapped := false }).OUT,
        q := (processInstrs b (F.block b)
          { outMapTemp := meetPreds F s.OUT b (s.IN b), OUT := s.OUT, q := q',
            trapped := false }).q,
        trapped := (processInstrs b (F.block b)
          { outMapTemp := meetPreds F s.OUT b (s.IN b), OUT := s.OUT, q := q',
            trapped := false }).trapped } := by
    simp [step, hq]
  rw [hstep] at hnt ⊢
  simp only at hnt
  have hwfb := processInstrs_terminatorsLast b (F.block b) (terminatorsLast_block hwf b)
    { outMapTemp := meetPreds F s.OUT b (s.IN b), OUT := s.OUT, q := q', trapped := false } hnt
  have houtT := processInstrs_outMapTemp b (F.block b)
    { outMapTemp := meetPreds F s.OUT b (s.IN b), OUT := s.OUT, q := q', trapped := false } rfl
  simp only at houtT
  rw [houtT] at hwfb
  generalize hr : processInstrs b (F.block b)
    { outMapTemp := meetPreds F s.OUT b (s.IN b), OUT := s.OUT, q := q', trapped := false }
      = r at hwfb
  generalize hin : meetPreds F s.OUT b (s.IN b) = inM at hL hK hcandK hwfb
  simp only at hwfb
  cases hso : storesOut (F.block b) with
  | false =>
    obtain ⟨hO, hQ⟩ := hwfb.1 hso
    constructor
    · have hw : ∀ x ∈ List.range F.blocks.length,
          blockWeight F { IN := upd s.IN b inM, OUT := r.OUT, q := q', trapped := r.trapped } x
            ≤ blockWeight F s x := by
        intro x _
        unfold blockWeight stale
        simp only [hO]
        by_cases e : x = b
        · subst e
          simp only [hso, upd_same]
          have := phi_le (U := allNames F) hL.1
          simpa using this
        · simp only [upd_other _ _ e]
          exact le_rfl
      have := sum_map_le hw
      unfold loopMeasure
      simp only [hQ, hq, List.length_cons]
      omega
    · intro x
      simp only [hO]
      refine ⟨?_, hOUT x⟩
      by_cases e : x = b
      · subst e; rw [upd_same]; exact hK
      · rw [upd_other _ _ e]; exact (hinv x).1
  | true =>
    obtain ⟨hO, pushes, hQ, hlen, hcmp⟩ := hwfb.2 hso
    have hb : b < F.blocks.length := storesOut_lt hso
    have hw : ∀ x ∈ List.range F.blocks.length,
        blockWeight F
            { IN := upd s.IN b inM, OUT := r.OUT, q := q' ++ pushes, trapped := r.trapped } x
          ≤ blockWeight F s x := by
      intro x _
      unfold blockWeight stale
      simp only [hO]
      by_cases e : x = b
      · subst e
        simp only [upd_same, ne_eq, not_true_eq_false, and_false, if_false]
        have := phi_le (U := allNames F) hL.1
        omega
      · simp only [upd_other _ _ e]
        exact le_rfl
    constructor
    · unfold loopMeasure
      simp only [hQ, hq, List.length_cons, List.length_append]
      by_cases hsame : inM = s.IN b ∧ s.OUT b = candOut b (F.block b) inM
      · have hp : pushes = [] := by
          apply hcmp
          rw [hsame.2]
          exact compareMaps_self _
        have := sum_map_le hw
        rw [hp] at this ⊢
        simp only [List.length_nil]
        omega
      · have hlt : blockWeight F
              { IN := upd s.IN b inM, OUT := r.OUT, q := q' ++ pushes, trapped := r.trapped } b
            < blockWeight F s b := by
          unfold blockWeight stale
          simp only [hO, upd_same, ne_eq, not_true_eq_false, and_false, if_false, hso, true_and]
          rcases hL.2 with e | hlt
          · have hne : ¬ s.OUT b = candOut b (F.block b) (s.IN b) := by
              intro h2
              exact hsame ⟨e, by rw [e]; exact h2⟩
            simp [hne, e]
          · omega
        have := sum_map_lt hw (List.mem_range.2 hb) hlt
        omega
    · intro x
      simp only [hO]
      constructor
      · by_cases e : x = b
        · subst e; rw [upd_same]; exact hK
        · rw [upd_other _ _ e]; exact (hinv x).1
      · by_cases e : x = b
        · subst e; rw [upd_same]; exact hcandK
        · rw [upd_other _ _ e]; exact hOUT x

theorem runLoop_trapped (F : Function) (n : Nat) (s : State) (h : s.trapped = true) :
    runLoop F n s = s := by
  cases n with
  | zero => rfl
  | succ n =>
    cases hq : s.q with
    | nil => simp [runLoop, hq]
    | cons b q' => simp [runLoop, hq, h]

theorem runLoop_stops (F : Function) (hwf : TerminatorsLast F) :
    ∀ (n : Nat) (s : State), KeysInv F s → loopMeasure F s ≤ n →
      (runLoop F n s).q = [] ∨ (runLoop F n s).trapped = true := by
  intro n
  induction n with
  | zero =>
    intro s _ h
    have : s.q.length = 0 := by unfold loopMeasure at h; omega
    exact Or.inl (by simpa [runLoop] using List.length_eq_zero.1 this)
  | succ n ih =>
    intro s hinv h
    cases hq : s.q with
    | nil => exact Or.inl (by simp [runLoop, hq])
    | cons b q' =>
      by_cases ht : s.trapped = true
      · rw [runLoop_trapped F _ s ht]
        exact Or.inr ht
      · have : runLoop F (n + 1) s = runLoop F n (step F s) := by
          simp [runLoop, hq, ht]
        rw [this]
        by_cases ht' : (step F s).trapped = true
        · rw [runLoop_trapped F _ _ ht']
          exact Or.inr ht'
        · have hs := step_decreases F hwf s hinv b q' hq (by simpa using ht')
          exact ih _ hs.2 (by omega)

theorem keysIn_foldl_tracked {U : List String} (l : List Instruction) :
    ∀ m : SMap, KeysIn U m → (∀ ins ∈ l, getLhsVar ins ∈ U) →
      KeysIn U (l.foldl
        (fun m ins => if isTracked ins then m.set (getLhsVar ins) INT_MAX else m) m) := by
  induction l with
  | nil => intro m hm _; exact hm
  | cons ins rest ih =>
    intro m hm h
    simp only [List.foldl_cons]
    apply ih
    · split_ifs
      · exact keysIn_set _ hm (h ins (List.mem_cons_self _ _))
      · exact hm
    · exact fun i hi => h i (List.mem_cons_of_mem _ hi)

theorem keysIn_outM_aux {U : List String} (bs : List BasicBlock) :
    ∀ m : SMap, KeysIn U m → (∀ bb ∈ bs, ∀ ins ∈ bb, getLhsVar ins ∈ U) →
      KeysIn U (bs.foldl (fun m bb => bb.foldl
        (fun m ins => if isTracked ins then m.set (getLhsVar ins) INT_MAX else m) m) m) := by
  induction bs with
  | nil => intro m hm _; exact hm
  | cons bb rest ih =>
    intro m hm h
    simp only [List.foldl_cons]
    apply ih
    · exact keysIn_foldl_tracked bb m hm (h bb (List.mem_cons_self _ _))
    · exact fun b hb => h b (List.mem_cons_of_mem _ hb)

theorem keysIn_outM (F : Function) : KeysIn (allNames F) (outM F) := by
  unfold outM
  apply keysIn_outM_aux _ _ (keysIn_empty _)
  intro bb hbb ins hins
  unfold allNames
  rw [List.mem_flatMap]
  exact ⟨ins, List.mem_flatten.2 ⟨bb, hbb, hins⟩, by simp [names]⟩

theorem keysIn_foldl_set {U : List String} (l : List (String × Int)) (v : Int) :
    ∀ m : SMap, KeysIn U m → (∀ p ∈ l, p.1 ∈ U) →
      KeysIn U (l.foldl (fun m mp => m.set mp.1 v) m) := by
  induction l with
  | nil => intro m hm _; exact hm
  | cons p rest ih =>
    intro m hm h
    simp only [List.foldl_cons]
    exact ih _ (keysIn_set _ hm (h p (List.mem_cons_self _ _)))
      (fun i hi => h i (List.mem_cons_of_mem _ hi))

theorem keysInv_initState (F : Function) : KeysInv F (initState F) := by
  have hT : ∀ b, KeysIn (allNames F)
      (if b < F.blocks.length then outM F else SMap.empty) := by
    intro b
    split_ifs
    · exact keysIn_outM F
    · exact keysIn_empty _
  intro b
  unfold initState
  simp only
  refine ⟨?_, hT b⟩
  by_cases e : b = 0
  · subst e
    rw [upd_same]
    exact keysIn_foldl_set _ _ _ (hT 0) (keysIn_entries (hT 0))
  · rw [upd_other _ _ e]
    exact hT b

/-- On a function in which no branch or return stands before the end of its
block, the worklist loop started from the queue holding only the entry block
stops after finitely many iterations: either the queue is empty and the analysis
returns its final state, or the division of a binary operation has trapped. -/
theorem worklist_stops (F : Function) (hwf : TerminatorsLast F) :
    ∃ fuel, ((runLoop F fuel (initState F)).q = [] ∧ (analyse F fuel).isSome = true) ∨
      (runLoop F fuel (initState F)).trapped = true := by
  refine ⟨loopMeasure F (initState F), ?_⟩
  have h := runLoop_stops F hwf _ (initState F) (keysInv_initState F) le_rfl
  by_cases ht : (runLoop F (loopMeasure F (initState F)) (initState F)).trapped = true
  · exact Or.inr ht
  · rcases h with h | h
    · refine Or.inl ⟨h, ?_⟩
      have ht' : (runLoop F (loopMeasure F (initState F)) (initState F)).trapped = false := by
        simpa using ht
      unfold analyse
      simp [h, ht']
    · exact absurd h ht

theorem worklist_stops_witness :
    TerminatorsLast loopCmp ∧
    ∃ fuel, ((runLoop loopCmp fuel (initState loopCmp)).q = [] ∧
        (analyse loopCmp fuel).isSome = true) ∨
      (runLoop loopCmp fuel (initState loopCmp)).trapped = true :=
  ⟨by unfold TerminatorsLast; decide,
   worklist_stops loopCmp (by unfold TerminatorsLast; decide)⟩

theorem runLoop_add_trapped (F : Function) :
    ∀ (m n : Nat) (s : State), (runLoop F m s).trapped = true →
      runLoop F (m + n) s = runLoop F m s := by
  intro m
  induction m with
  | zero =>
    intro n s h
    simp only [runLoop] at h
    rw [runLoop_trapped F _ s h, runLoop_trapped F _ s h]
  | succ m ih =>
    intro n s h
    cases hq : s.q with
    | nil =>
      have h0 : ∀ k, runLoop F k s = s := by
        intro k
        cases k with
        | zero => rfl
        | succ k => simp [runLoop, hq]
      rw [h0, h0]
    | cons b q' =>
      by_cases ht : s.trapped = true
      · rw [runLoop_trapped F _ s ht, runLoop_trapped F _ s ht]
      · have h1 : runLoop F (m + 1) s = runLoop F m (step F s) := by simp [runLoop, hq, ht]
        have h2 : runLoop F (m + 1 + n) s = runLoop F (m + n) (step F s) := by
          have : m + 1 + n = (m + n) + 1 := by omega
          rw [this]; simp [runLoop, hq, ht]
        rw [h1] at h
        rw [h1, h2, ih n _ h]

theorem analyse_trapped (F : Function) (m : Nat)
    (ht : (runLoop F m (initState F)).trapped = true)
    (hq : ∀ k, k < m → (runLoop F k (initState F)).q ≠ []) :
    ∀ fuel, analyse F fuel = none := by
  intro fuel
  unfold analyse
  by_cases hf : fuel < m
  · have := hq fuel hf
    simp [this]
  · obtain ⟨n, rfl⟩ : ∃ n, fuel = m + n := ⟨fuel - m, by omega⟩
    rw [runLoop_add_trapped F m n _ ht]
    simp [ht]

/-- C2 (failing input): in `sdivM1` no branch or return stands before the end
of a block, yet the first iteration of the worklist loop reads `INT_MIN` for the
dividend `%v` and divides it by `-1`: the division traps, the process is
killed, and the worklist loop does not come to its end, whatever the number of
iterations allowed.  On `sdivLoop`, in which every load follows a store, the
fourth iteration traps in the same way, with block `1` still in the queue. -/
theorem sdiv_trap_stops_worklist :
    TerminatorsLast sdivM1 ∧
    (initState sdivM1).q = [0] ∧
    computedVal .SDiv INT_MIN (-1) = none ∧
    (transfer (.binop "%q" .SDiv (.slot "%v") (.const (-1))) (some (.ret (some (.slot "%q"))))
      ((SMap.empty.set "%v" INT_MIN).set "%x" INT_MIN)).isNone = true ∧
    (step sdivM1 (initState sdivM1)).trapped = true ∧
    (∀ fuel, analyse sdivM1 fuel = none) ∧
    TerminatorsLast sdivLoop ∧
    (runLoop sdivLoop 3 (initState sdivLoop)).q = [2, 1] ∧
    (runLoop sdivLoop 3 (initState sdivLoop)).trapped = false ∧
    (runLoop sdivLoop 4 (initState sdivLoop)).q = [1] ∧
    (runLoop sdivLoop 4 (initState sdivLoop)).trapped = true ∧
    (∀ fuel, analyse sdivLoop fuel = none) := by
  refine ⟨by unfold TerminatorsLast; decide, by decide, by decide, by decide, by decide, ?_,
    by unfold TerminatorsLast; decide, by decide, by decide, by decide, by decide, ?_⟩
  · apply analyse_trapped sdivM1 1 (by decide)
    intro k hk
    have : k = 0 := by omega
    subst this
    decide
  · apply analyse_trapped sdivLoop 4 (by decide)
    intro k hk
    have : k = 0 ∨ k = 1 ∨ k = 2 ∨ k = 3 := by omega
    rcases this with h | h | h | h <;> subst h <;> decide

/-! ## The rewrite loop: what it removes and what it replaces -/

theorem mapOperands_mapOperands (f g : Operand → Operand) (ins : Instruction) :
    (ins.mapOperands f).mapOperands g = ins.mapOperands (g ∘ f) := by
  cases ins <;> simp [Instruction.mapOperands, Function.comp]

theorem mapOperands_id (ins : Instruction) : ins.mapOperands (fun o => o) = ins := by
  cases ins <;> simp [Instruction.mapOperands]

theorem getLhsVar_mapOperands (f : Operand → Operand) (ins : Instruction) :
    getLhsVar (ins.mapOperands f) = getLhsVar ins := by
  cases ins <;> rfl

theorem resultName_mapOperands (f : Operand → Operand) (ins : Instruction) :
    resultName (ins.mapOperands f) = resultName ins := by
  cases ins <;> rfl

theorem getType_mapOperands (f : Operand → Operand) (ins : Instruction) :
    (ins.mapOperands f).getType = ins.getType := by
  cases ins with
  | other name _ _ _ => cases name <;> rfl
  | _ => rfl

/-- The operands that `ConstantInt::get` yields: they name no value. -/
theorem constantInt_get_literal {type : Ty} {k : Int} {c : Operand}
    (h : ConstantInt.get type k = some c) : ∀ n, c ≠ .slot n := by
  intro n
  cases type <;> simp [ConstantInt.get] at h <;> rw [← h] <;> simp

theorem literalOf_append (n : String) (σ τ : List (String × Operand)) :
    literalOf n (σ ++ τ) = match literalOf n σ with
      | some c => some c
      | none => literalOf n τ := by
  induction σ with
  | nil => simp [literalOf]
  | cons p t ih =>
    simp only [List.cons_append, literalOf]
    split_ifs
    · rfl
    · exact ih

theorem mem_of_literalOf {n : String} {c : Operand} {σ : List (String × Operand)}
    (h : literalOf n σ = some c) : (n, c) ∈ σ := by
  induction σ with
  | nil => simp [literalOf] at h
  | cons p t ih =>
    simp only [literalOf] at h
    split_ifs at h with e
    · simp only [Option.some.injEq] at h
      rw [e, ← h]
      exact List.mem_cons_self _ _
    · exact List.mem_cons_of_mem _ (ih h)

theorem literals_nil : Literals [] := fun _ h => absurd h (List.not_mem_nil _)

theorem literals_append {σ τ : List (String × Operand)} (h1 : Literals σ) (h2 : Literals τ) :
    Literals (σ ++ τ) := by
  intro p hp
  rcases List.mem_append.1 hp with h | h
  · exact h1 p h
  · exact h2 p h

theorem operand_subst_subst (σ τ : List (String × Operand)) (hσ : Literals σ) (o : Operand) :
    Operand.subst τ (Operand.subst σ o) = Operand.subst (σ ++ τ) o := by
  cases o with
  | const v => rfl
  | bool v => rfl
  | slot n =>
    simp only [Operand.subst, literalOf_append]
    cases hl : literalOf n σ with
    | some c =>
      have hc := hσ _ (mem_of_literalOf hl)
      cases c with
      | const v => rfl
      | bool v => rfl
      | slot m => exact absurd rfl (hc m)
    | none => simp [Operand.subst]

theorem instruction_subst_subst (σ τ : List (String × Operand)) (hσ : Literals σ)
    (ins : Instruction) :
    Instruction.subst τ (Instruction.subst σ ins) = Instruction.subst (σ ++ τ) ins := by
  unfold Instruction.subst
  rw [mapOperands_mapOperands]
  congr 1
  funext o
  exact operand_subst_subst σ τ hσ o

theorem instruction_subst_nil (ins : Instruction) : Instruction.subst [] ins = ins := by
  unfold Instruction.subst
  have : Operand.subst [] = fun o => o := by
    funext o
    cases o <;> simp [Operand.subst, literalOf]
  rw [this, mapOperands_id]

theorem map_subst_nil (l : List Instruction) : l.map (Instruction.subst []) = l := by
  induction l with
  | nil => rfl
  | cons a t ih => simp [instruction_subst_nil, ih]

theorem map_subst_subst (σ τ : List (String × Operand)) (hσ : Literals σ)
    (l : List Instruction) :
    (l.map (Instruction.subst σ)).map (Instruction.subst τ)
      = l.map (Instruction.subst (σ ++ τ)) := by
  simp [List.map_map, Function.comp, instruction_subst_subst σ τ hσ]

theorem replaceUses_eq_subst (name : String) (c : Operand) (ins : Instruction) :
    ins.replaceUses name c = Instruction.subst [(name, c)] ins := by
  unfold Instruction.replaceUses Instruction.subst
  congr 1
  funext o
  cases o with
  | const v => rfl
  | bool v => rfl
  | slot n =>
    simp only [Operand.replace, Operand.subst, literalOf]
    split_ifs <;> rfl

theorem kept_subst (OUTb : SMap) (σ : List (String × Operand)) (ins : Instruction) :
    kept OUTb (Instruction.subst σ ins) = kept OUTb ins := by
  unfold kept Instruction.subst
  rw [getLhsVar_mapOperands]

theorem literalFor_subst (OUTb : SMap) (σ : List (String × Operand)) (ins : Instruction) :
    literalFor OUTb (Instruction.subst σ ins) = literalFor OUTb ins := by
  unfold literalFor Instruction.subst
  rw [getLhsVar_mapOperands, getType_mapOperands]

theorem removedBy_subst (OUTb : SMap) (σ : List (String × Operand)) (ins : Instruction) :
    removedBy OUTb (Instruction.subst σ ins) = removedBy OUTb ins := by
  unfold removedBy
  rw [literalFor_subst]
  unfold Instruction.subst
  rw [resultName_mapOperands]

theorem removedIn_map_subst (OUTb : SMap) (σ : List (String × Operand)) (l : List Instruction) :
    removedIn OUTb (l.map (Instruction.subst σ)) = removedIn OUTb l := by
  unfold removedIn
  induction l with
  | nil => rfl
  | cons a t ih => simp [List.flatMap_cons, removedBy_subst, ih]

theorem filter_kept_map_subst (OUTb : SMap) (σ : List (String × Operand)) (l : List Instruction) :
    (l.map (Instruction.subst σ)).filter (kept OUTb)
      = (l.filter (kept OUTb)).map (Instruction.subst σ) := by
  rw [List.filter_map]
  congr 2
  funext ins
  exact kept_subst OUTb σ ins

theorem literalFor_literal {OUTb : SMap} {ins : Instruction} {c : Operand}
    (h : literalFor OUTb ins = some c) : ∀ n, c ≠ .slot n := by
  unfold literalFor at h
  cases hc : constantIn OUTb (getLhsVar ins) with
  | none => simp [hc] at h
  | some k =>
    simp only [hc] at h
    exact constantInt_get_literal h

theorem literals_removedBy (OUTb : SMap) (ins : Instruction) : Literals (removedBy OUTb ins) := by
  intro p hp
  unfold removedBy at hp
  cases hl : literalFor OUTb ins with
  | none => simp [hl] at hp
  | some c =>
    cases hr : resultName ins with
    | none => simp [hl, hr] at hp
    | some n =>
      simp only [hl, hr, List.mem_singleton] at hp
      rw [hp]
      exact literalFor_literal hl

theorem literals_removedIn (OUTb : SMap) (l : List Instruction) : Literals (removedIn OUTb l) := by
  intro p hp
  unfold removedIn at hp
  rw [List.mem_flatMap] at hp
  obtain ⟨ins, _, h⟩ := hp
  exact literals_removedBy OUTb ins p h

theorem literals_removed (OUT : Nat → SMap) (F : Function) : Literals (removed OUT F) := by
  intro p hp
  unfold removed at hp
  rw [List.mem_flatMap] at hp
  obtain ⟨b, _, h⟩ := hp
  exact literals_removedIn (OUT b) _ p h

theorem block_eq_getElem? (F : Function) (b : Nat) : F.block b = (F.blocks[b]?).getD [] := by
  simp [Function.block]

theorem replaceAllUsesWith_block (OUTb : SMap) (F : Function) (inst : Instruction) (c : Operand)
    (hc : literalFor OUTb inst = some c) (b' : Nat) :
    (replaceAllUsesWith F inst c).block b'
      = (F.block b').map (Instruction.subst (removedBy OUTb inst)) := by
  unfold replaceAllUsesWith removedBy
  rw [hc]
  cases hr : resultName inst with
  | none => simp [map_subst_nil]
  | some n =>
    simp only [block_eq_getElem?, List.getElem?_map]
    cases F.blocks[b']? with
    | none => rfl
    | some B =>
      simp only [Option.map_some', Option.getD_some]
      exact List.map_congr_left (fun ins _ => replaceUses_eq_subst n c ins)

theorem eraseFromParent_block (F : Function) (b i b' : Nat) :
    (eraseFromParent F b i).block b'
      = if b' = b then (F.block b).eraseIdx i else F.block b' := by
  simp only [eraseFromParent, block_eq_getElem?, List.getElem?_modify]
  by_cases e : b' = b
  · subst e
    cases F.blocks[b']? <;> simp
  · have : ¬ b = b' := fun h => e h.symm
    cases F.blocks[b']? <;> simp [e, this]

theorem removedIn_cons (OUTb : SMap) (ins : Instruction) (l : List Instruction) :
    removedIn OUTb (ins :: l) = removedBy OUTb ins ++ removedIn OUTb l := by
  simp [removedIn, List.flatMap_cons]

theorem removedBy_kept {OUTb : SMap} {ins : Instruction}
    (h : constantIn OUTb (getLhsVar ins) = none) : removedBy OUTb ins = [] := by
  simp [removedBy, literalFor, h]

/-- The rewrite of one block, from position `i` on, when `ConstantInt::get`
yields a literal for every instruction that the loop selects: the instructions
before `i` stay, of the others those stay whose left-hand side has no concrete
constant in the table, and every block undergoes the replacements of the
removed ones. -/
theorem rewriteBlock_block (OUTb : SMap) (b : Nat) :
    ∀ (n i : Nat) (F : Function), (F.block b).length ≤ i + n →
      (∀ ins ∈ (F.block b).drop i, kept OUTb ins = false → literalFor OUTb ins ≠ none) →
      ∃ G, rewriteBlock OUTb b n i F = some G ∧ ∀ b',
        G.block b' =
          (if b' = b then (F.block b).take i ++ ((F.block b).drop i).filter (kept OUTb)
            else F.block b').map
            (Instruction.subst (removedIn OUTb ((F.block b).drop i))) := by
  intro n
  induction n with
  | zero =>
    intro i F hlen _
    refine ⟨F, rfl, fun b' => ?_⟩
    have hd : (F.block b).drop i = [] := List.drop_eq_nil_of_le (by omega)
    have ht : (F.block b).take i = F.block b := List.take_of_length_le (by omega)
    simp only [hd, ht, removedIn, List.flatMap_nil, List.filter_nil,
      List.append_nil, map_subst_nil]
    split_ifs with e
    · rw [e]
    · rfl
  | succ n ih =>
    intro i F hlen hty
    simp only [rewriteBlock]
    cases hget : (F.block b)[i]? with
    | none =>
      refine ⟨F, rfl, fun b' => ?_⟩
      have hi : (F.block b).length ≤ i := List.getElem?_eq_none_iff.1 hget
      have hd : (F.block b).drop i = [] := List.drop_eq_nil_of_le hi
      have ht : (F.block b).take i = F.block b := List.take_of_length_le hi
      simp only [hd, ht, removedIn, List.flatMap_nil, List.filter_nil,
        List.append_nil, map_subst_nil]
      split_ifs with e
      · rw [e]
      · rfl
    | some inst =>
      obtain ⟨hi, hinst⟩ := List.getElem?_eq_some_iff.1 hget
      have hdrop : (F.block b).drop i = inst :: (F.block b).drop (i + 1) := by
        rw [List.drop_eq_getElem_cons hi, hinst]
      have hty' : ∀ ins ∈ (F.block b).drop (i + 1), kept OUTb ins = false →
          literalFor OUTb ins ≠ none := by
        intro ins hins
        apply hty
        rw [hdrop]
        exact List.mem_cons_of_mem _ hins
      cases hc : constantIn OUTb (getLhsVar inst) with
      | none =>
        simp only [hc]
        obtain ⟨G, hG, hGb⟩ := ih (i + 1) F (by omega) hty'
        refine ⟨G, hG, fun b' => ?_⟩
        rw [hGb b', hdrop, removedIn_cons, removedBy_kept hc, List.nil_append]
        have hk : kept OUTb inst = true := by simp [kept, hc]
        have ht : (F.block b).take (i + 1) = (F.block b).take i ++ [inst] := by
          rw [List.take_succ, hget]; rfl
        simp only [List.filter_cons, hk, if_true, ht, List.append_assoc, List.singleton_append]
      | some k =>
        simp only [hc]
        have hk : kept OUTb inst = false := by simp [kept, hc]
        have hlit : literalFor OUTb inst ≠ none :=
          hty inst (by rw [hdrop]; exact List.mem_cons_self _ _) hk
        obtain ⟨c, hcl⟩ := Option.ne_none_iff_exists'.1 hlit
        have hget' : ConstantInt.get inst.getType k = some c := by
          simpa [literalFor, hc] using hcl
        simp only [hget']
        have hB : ∀ x, (eraseFromParent (replaceAllUsesWith F inst c) b i).block x
            = if x = b then ((F.block b).map (Instruction.subst (removedBy OUTb inst))).eraseIdx i
              else (F.block x).map (Instruction.subst (removedBy OUTb inst)) := by
          intro x
          rw [eraseFromParent_block]
          simp only [replaceAllUsesWith_block OUTb F inst c hcl]
        have hBb := hB b
        simp only [if_true] at hBb
        have hlen1 : ((eraseFromParent (replaceAllUsesWith F inst c) b i).block b).length
            ≤ i + n := by
          rw [hBb, List.length_eraseIdx, List.length_map]
          split_ifs
          all_goals omega
        have hE : ((F.block b).map (Instruction.subst (removedBy OUTb inst))).eraseIdx i
            = ((F.block b).take i).map (Instruction.subst (removedBy OUTb inst))
              ++ ((F.block b).drop (i + 1)).map (Instruction.subst (removedBy OUTb inst)) := by
          rw [List.eraseIdx_eq_take_drop_succ, List.map_take, List.map_drop]
        have hlt : (((F.block b).take i).map
            (Instruction.subst (removedBy OUTb inst))).length = i := by
          simp [List.length_take]; omega
        have hD : (((F.block b).map (Instruction.subst (removedBy OUTb inst))).eraseIdx i).drop i
            = ((F.block b).drop (i + 1)).map (Instruction.subst (removedBy OUTb inst)) := by
          rw [hE, List.drop_left' hlt]
        have hT : (((F.block b).map (Instruction.subst (removedBy OUTb inst))).eraseIdx i).take i
            = ((F.block b).take i).map (Instruction.subst (removedBy OUTb inst)) := by
          rw [hE, List.take_left' hlt]
        have hty1 :
            ∀ ins ∈ ((eraseFromParent (replaceAllUsesWith F inst c) b i).block b).drop i,
              kept OUTb ins = false → literalFor OUTb ins ≠ none := by
          intro ins hins
          rw [hBb, hD] at hins
          obtain ⟨ins0, hins0, he⟩ := List.mem_map.1 hins
          rw [← he, kept_subst, literalFor_subst]
          exact hty' ins0 hins0
        obtain ⟨G, hG, hGb⟩ := ih i _ hlen1 hty1
        refine ⟨G, hG, fun b' => ?_⟩
        rw [hGb b', hBb]
        rw [hD, hT, removedIn_map_subst, hdrop, removedIn_cons, filter_kept_map_subst]
        simp only [List.filter_cons, hk, Bool.false_eq_true, if_false]
        have hL := literals_removedBy OUTb inst
        by_cases e : b' = b
        · simp only [e, if_true]
          rw [← List.map_append, map_subst_subst _ _ hL]
        · simp only [e, if_false]
          rw [hB b']
          simp only [e, if_false]
          rw [map_subst_subst _ _ hL]

theorem rewrite_foldl_block (OUT : Nat → SMap) (F : Function) :
    ∀ (L P : List Nat) (σ : List (String × Operand)) (G : Function),
      (∀ x ∈ L, x ∉ P) → L.Nodup → Literals σ →
      (∀ b ∈ L, ∀ ins ∈ F.block b, kept (OUT b) ins = false →
        literalFor (OUT b) ins ≠ none) →
      (∀ b', G.block b' =
        (if b' ∈ P then (F.block b').filter (kept (OUT b')) else F.block b').map
          (Instruction.subst σ)) →
      ∃ G', L.foldl (fun G b => G.bind
          (fun G => rewriteBlock (OUT b) b (G.block b).length 0 G)) (some G) = some G' ∧
        ∀ b', G'.block b' =
          (if b' ∈ P ++ L then (F.block b').filter (kept (OUT b')) else F.block b').map
            (Instruction.subst (σ ++ L.flatMap (fun b => removedIn (OUT b) (F.block b)))) := by
  intro L
  induction L with
  | nil =>
    intro P σ G _ _ _ _ hG
    exact ⟨G, rfl, fun b' => by simpa using hG b'⟩
  | cons b t ih =>
    intro P σ G hdisj hnd hσ hty hG
    have hbP : b ∉ P := hdisj b (List.mem_cons_self _ _)
    have hnd' := List.nodup_cons.1 hnd
    simp only [List.foldl_cons, Option.some_bind]
    have hGb : G.block b = (F.block b).map (Instruction.subst σ) := by
      rw [hG b]; simp [hbP]
    have htyG : ∀ ins ∈ (G.block b).drop 0, kept (OUT b) ins = false →
        literalFor (OUT b) ins ≠ none := by
      intro ins hins
      rw [List.drop_zero, hGb] at hins
      obtain ⟨ins0, hins0, he⟩ := List.mem_map.1 hins
      rw [← he, kept_subst, literalFor_subst]
      exact hty b (List.mem_cons_self _ _) ins0 hins0
    obtain ⟨G1, hG1, hG1b⟩ :=
      rewriteBlock_block (OUT b) b (G.block b).length 0 G (by omega) htyG
    rw [hG1]
    have hstep : ∀ x, G1.block x =
        (if x ∈ P ++ [b] then (F.block x).filter (kept (OUT x)) else F.block x).map
          (Instruction.subst (σ ++ removedIn (OUT b) (F.block b))) := by
      intro x
      rw [hG1b x]
      simp only [List.take_zero, List.drop_zero, List.nil_append]
      rw [hGb, removedIn_map_subst, filter_kept_map_subst]
      by_cases e : x = b
      · subst e
        simp only [if_true, List.mem_append, List.mem_singleton, or_true]
        rw [map_subst_subst _ _ hσ]
      · simp only [e, if_false, List.mem_append, List.mem_singleton, or_false]
        rw [hG x, map_subst_subst _ _ hσ]
    have hdisj' : ∀ x ∈ t, x ∉ P ++ [b] := by
      intro x hx hmem
      rcases List.mem_append.1 hmem with h | h
      · exact hdisj x (List.mem_cons_of_mem _ hx) h
      · have : x = b := by simpa using h
        exact hnd'.1 (this ▸ hx)
    obtain ⟨G', hG', hG'b⟩ := ih (P ++ [b]) (σ ++ removedIn (OUT b) (F.block b)) G1 hdisj'
      hnd'.2 (literals_append hσ (literals_removedIn _ _))
      (fun x hx => hty x (List.mem_cons_of_mem _ hx)) hstep
    refine ⟨G', hG', fun b' => ?_⟩
    rw [hG'b b']
    simp only [List.append_assoc, List.singleton_append, List.flatMap_cons]

theorem literalFor_ne_none {OUT : Nat → SMap} {F : Function} (hty : IntegerTyped OUT F)
    {b : Nat} {ins : Instruction} (hins : ins ∈ F.block b) (hk : kept (OUT b) ins = false) :
    literalFor (OUT b) ins ≠ none := by
  unfold kept at hk
  cases hc : constantIn (OUT b) (getLhsVar ins) with
  | none => simp [hc] at hk
  | some k =>
    have := hty b ins hins (by simp [hc])
    unfold literalFor
    simp only [hc]
    rcases this with h | h <;> rw [h] <;> simp [ConstantInt.get]

/-- The rewrite loop, when `ConstantInt::get` yields a literal for every
instruction that the loop selects: it has a result, in which every block keeps
the instructions that are not selected, with the replacements of all the
removed instructions applied. -/
theorem rewrite_block (OUT : Nat → SMap) (F : Function) (hty : IntegerTyped OUT F) :
    ∃ G, rewrite OUT F = some G ∧ ∀ b, G.block b =
      ((F.block b).filter (kept (OUT b))).map (Instruction.subst (removed OUT F)) := by
  obtain ⟨G, hG, hGb⟩ := rewrite_foldl_block OUT F (List.range F.blocks.length) [] [] F
    (fun _ _ => List.not_mem_nil _) (List.nodup_range _) literals_nil
    (fun b _ ins hins hk => literalFor_ne_none hty hins hk)
    (fun b' => by simp [map_subst_nil])
  refine ⟨G, hG, fun b => ?_⟩
  rw [hGb b]
  unfold removed
  simp only [List.nil_append, List.mem_range]
  split_ifs with hb
  · rfl
  · have : F.block b = [] := by
      unfold Function.block
      exact List.getD_eq_default _ _ (by omega)
    simp [this]

theorem mem_removedBy {OUTb : SMap} {ins : Instruction} {n : String} {c : Operand}
    (h : (n, c) ∈ removedBy OUTb ins) :
    literalFor OUTb ins = some c ∧ resultName ins = some n := by
  unfold removedBy at h
  cases hc : literalFor OUTb ins with
  | none => simp [hc] at h
  | some k' =>
    cases hr : resultName ins with
    | none => simp [hc, hr] at h
    | some n' =>
      simp only [hc, hr, List.mem_singleton, Prod.mk.injEq] at h
      rw [h.1, h.2]
      exact ⟨rfl, rfl⟩

theorem mem_removed {OUT : Nat → SMap} {F : Function} {n : String} {c : Operand}
    (h : (n, c) ∈ removed OUT F) :
    ∃ b ins, ins ∈ F.block b ∧ literalFor (OUT b) ins = some c ∧
      resultName ins = some n := by
  unfold removed removedIn at h
  rw [List.mem_flatMap] at h
  obtain ⟨b, _, hb⟩ := h
  rw [List.mem_flatMap] at hb
  obtain ⟨ins, hins, hmem⟩ := hb
  exact ⟨b, ins, hins, mem_removedBy hmem⟩

theorem removed_mem {OUT : Nat → SMap} {F : Function} {b : Nat} {ins : Instruction}
    {n : String} {c : Operand} (hins : ins ∈ F.block b)
    (hc : literalFor (OUT b) ins = some c) (hr : resultName ins = some n) :
    (n, c) ∈ removed OUT F := by
  unfold removed removedIn
  rw [List.mem_flatMap]
  have hb : b < F.blocks.length := by
    by_contra hb
    have : F.block b = [] := by
      unfold Function.block
      exact List.getD_eq_default _ _ (by omega)
    rw [this] at hins
    simp at hins
  refine ⟨b, List.mem_range.2 hb, ?_⟩
  rw [List.mem_flatMap]
  exact ⟨ins, hins, by simp [removedBy, hc, hr]⟩

theorem literalOf_isSome_of_mem {n : String} {c : Operand} {σ : List (String × Operand)}
    (h : (n, c) ∈ σ) : ∃ c', literalOf n σ = some c' := by
  induction σ with
  | nil => simp at h
  | cons p t ih =>
    simp only [literalOf]
    split_ifs with e
    · exact ⟨p.2, rfl⟩
    · rcases List.mem_cons.1 h with h | h
      · exact absurd (by rw [← h]) e
      · exact ih h

theorem getD_mem_of_mem {bs : List BasicBlock} {b : Nat} {ins : Instruction}
    (h : ins ∈ bs.getD b []) : bs.getD b [] ∈ bs := by
  by_cases hb : b < bs.length
  · rw [List.getD_eq_getElem _ _ hb]
    exact List.getElem_mem hb
  · rw [List.getD_eq_default _ _ (by omega)] at h
    simp at h

theorem mem_filterMap_flatten {bs : List BasicBlock} {b : Nat} {ins : Instruction}
    {n : String} (h : ins ∈ bs.getD b []) (hr : resultName ins = some n) :
    n ∈ bs.flatten.filterMap resultName :=
  List.mem_filterMap.2 ⟨ins, List.mem_flatten.2 ⟨_, getD_mem_of_mem h, h⟩, hr⟩

theorem same_block_of_nodup : ∀ (bs : List BasicBlock),
    (bs.flatten.filterMap resultName).Nodup →
    ∀ (b b' : Nat) (ins ins' : Instruction) (n : String),
      ins ∈ bs.getD b [] → ins' ∈ bs.getD b' [] →
      resultName ins = some n → resultName ins' = some n → b = b' := by
  intro bs
  induction bs with
  | nil => intro _ b b' ins ins' n h; simp at h
  | cons hd tl ih =>
    intro hnd b b' ins ins' n h h' hr hr'
    rw [List.flatten_cons, List.filterMap_append] at hnd
    have hdisj := List.disjoint_of_nodup_append hnd
    have hnd2 := (List.nodup_append.1 hnd).2.1
    cases b with
    | zero =>
      cases b' with
      | zero => rfl
      | succ c' =>
        exfalso
        simp only [List.getD_cons_zero] at h
        simp only [List.getD_cons_succ] at h'
        exact hdisj (List.mem_filterMap.2 ⟨ins, h, hr⟩) (mem_filterMap_flatten h' hr')
    | succ c =>
      cases b' with
      | zero =>
        exfalso
        simp only [List.getD_cons_zero] at h'
        simp only [List.getD_cons_succ] at h
        exact hdisj (List.mem_filterMap.2 ⟨ins', h', hr'⟩) (mem_filterMap_flatten h hr)
      | succ c' =>
        simp only [List.getD_cons_succ] at h h'
        rw [ih hnd2 c c' ins ins' n h h' hr hr']

theorem same_ins_of_nodup : ∀ (l : List Instruction), (l.filterMap resultName).Nodup →
    ∀ (ins ins' : Instruction) (n : String), ins ∈ l → ins' ∈ l →
      resultName ins = some n → resultName ins' = some n → ins = ins' := by
  intro l
  induction l with
  | nil => intro _ ins ins' n h; simp at h
  | cons a t ih =>
    intro hnd ins ins' n h h' hr hr'
    rcases List.mem_cons.1 h with e | hm
    · rcases List.mem_cons.1 h' with e' | hm'
      · rw [e, e']
      · exfalso
        subst e
        rw [List.filterMap_cons_some hr] at hnd
        exact (List.nodup_cons.1 hnd).1 (List.mem_filterMap.2 ⟨ins', hm', hr'⟩)
    · rcases List.mem_cons.1 h' with e' | hm'
      · exfalso
        subst e'
        rw [List.filterMap_cons_some hr'] at hnd
        exact (List.nodup_cons.1 hnd).1 (List.mem_filterMap.2 ⟨ins, hm, hr⟩)
      · have hnd' : (t.filterMap resultName).Nodup := by
          cases hra : resultName a with
          | none => rw [List.filterMap_cons_none hra] at hnd; exact hnd
          | some m => rw [List.filterMap_cons_some hra] at hnd; exact (List.nodup_cons.1 hnd).2
        exact ih hnd' ins ins' n hm hm' hr hr'

theorem constantIn_eq_some {OUTb : SMap} {key : String} {k : Int} :
    constantIn OUTb key = some k ↔ OUTb.find? key = some k ∧ isConstant k := by
  unfold constantIn isConstant
  cases OUTb.find? key with
  | none => simp
  | some v =>
    by_cases h : v ≠ INT_MIN ∧ v ≠ INT_MAX
    · simp only [h, if_true, Option.some.injEq, ne_eq, not_false_eq_true, and_self]
      constructor
      · intro e; subst e; exact ⟨rfl, h⟩
      · intro e; exact e.1
    · simp only [h, if_false]
      constructor
      · intro e; exact absurd e (by simp)
      · intro e
        have := e.1
        simp only [Option.some.injEq] at this
        subst this
        exact absurd e.2 h

theorem constantIn_eq_none {OUTb : SMap} {key : String} :
    constantIn OUTb key = none ↔ ∀ k, OUTb.find? key = some k → ¬ isConstant k := by
  constructor
  · intro h k hk hc
    have := constantIn_eq_some.2 ⟨hk, hc⟩
    rw [h] at this
    exact Option.noConfusion this
  · intro h
    cases hc : constantIn OUTb key with
    | none => rfl
    | some k =>
      have := constantIn_eq_some.1 hc
      exact absurd this.2 (h k this.1)

theorem operands_mapOperands (f : Operand → Operand) (ins : Instruction) :
    operands (ins.mapOperands f) = (operands ins).map f := by
  cases ins with
  | ret value => cases value <;> rfl
  | _ => rfl

theorem kept_eq (OUTb : SMap) (ins : Instruction) :
    kept OUTb ins =
      match OUTb.find? (getLhsVar ins) with
      | none => true
      | some v => decide (v = INT_MIN ∨ v = INT_MAX) := by
  unfold kept constantIn
  cases OUTb.find? (getLhsVar ins) with
  | none => rfl
  | some v =>
    by_cases h1 : v = INT_MIN
    · simp [h1]
    · by_cases h2 : v = INT_MAX
      · simp [h2]
      · simp [h1, h2]

theorem subst_ne_slot {σ : List (String × Operand)} (hσ : Literals σ) {n : String}
    {c : Operand} (h : literalOf n σ = some c) (o : Operand) : Operand.subst σ o ≠ .slot n := by
  cases o with
  | const v => simp [Operand.subst]
  | bool v => simp [Operand.subst]
  | slot m =>
    simp only [Operand.subst]
    cases hm : literalOf m σ with
    | some c' => exact hσ _ (mem_of_literalOf hm) n
    | none =>
      simp only [ne_eq, Operand.slot.injEq]
      intro e
      rw [e, h] at hm
      exact Option.noConfusion hm

/-- The rewrite loop on a function in which every instruction that it selects
has type `i32` or `i1`.  The loop has a result, in which: (1) block `b`
consists, in order, of the instructions of block `b` of `F` whose left-hand side
is absent from `OUT b` or mapped there to `INT_MIN` or `INT_MAX`, each with its
operands replaced, so that an instruction whose left-hand side maps to a
concrete constant is gone; (2) when names are unique and an instruction of
block `b` with result `n` has the concrete constant `k` in `OUT b`, the
replacement applied to every operand turns the slot `n` into the literal that
`ConstantInt::get` makes of `k` for the type of the instruction, and no operand
of the new function is the slot `n`. -/
theorem rewrite_integer_typed (OUT : Nat → SMap) (F : Function) (hty : IntegerTyped OUT F) :
    ∃ G, rewrite OUT F = some G ∧
    (∀ b, G.block b =
      ((F.block b).filter
        (fun ins => match (OUT b).find? (getLhsVar ins) with
          | none => true
          | some v => decide (v = INT_MIN ∨ v = INT_MAX))).map
        (Instruction.mapOperands (Operand.subst (removed OUT F)))) ∧
    (UniqueNames F → ∀ b ins n k, ins ∈ F.block b → resultName ins = some n →
      (OUT b).find? (getLhsVar ins) = some k → isConstant k →
      ConstantInt.get ins.getType k = some (Operand.subst (removed OUT F) (.slot n)) ∧
      ∀ b' ins', ins' ∈ G.block b' → Operand.slot n ∉ operands ins') := by
  obtain ⟨G, hG, hGb⟩ := rewrite_block OUT F hty
  refine ⟨G, hG, ?_, ?_⟩
  · intro b
    rw [hGb b]
    have : kept (OUT b) = fun ins => match (OUT b).find? (getLhsVar ins) with
        | none => true
        | some v => decide (v = INT_MIN ∨ v = INT_MAX) := funext (kept_eq (OUT b))
    rw [this]
    rfl
  · intro hu b ins n k hins hr hf hk
    have hc : constantIn (OUT b) (getLhsVar ins) = some k := constantIn_eq_some.2 ⟨hf, hk⟩
    have hkept : kept (OUT b) ins = false := by simp [kept, hc]
    obtain ⟨c, hcl⟩ := Option.ne_none_iff_exists'.1 (literalFor_ne_none hty hins hkept)
    have hget : ConstantInt.get ins.getType k = some c := by
      simpa [literalFor, hc] using hcl
    have hmem : (n, c) ∈ removed OUT F := removed_mem hins hcl hr
    obtain ⟨c', hc'⟩ := literalOf_isSome_of_mem hmem
    have hmem' := mem_of_literalOf hc'
    obtain ⟨b2, ins2, hins2, hc2, hr2⟩ := mem_removed hmem'
    have hb : b = b2 := same_block_of_nodup F.blocks hu b b2 ins ins2 n hins hins2 hr hr2
    subst hb
    have hi : ins = ins2 :=
      same_ins_of_nodup F.blocks.flatten hu ins ins2 n
        (List.mem_flatten.2 ⟨_, mem_block hins, hins⟩)
        (List.mem_flatten.2 ⟨_, mem_block hins2, hins2⟩) hr hr2
    subst hi
    have hkk : c' = c := by
      rw [hcl] at hc2
      exact (Option.some.inj hc2).symm
    subst hkk
    constructor
    · simp [Operand.subst, hc', hget]
    · intro b' ins' hins' hop
      rw [hGb b'] at hins'
      obtain ⟨i0, _, he⟩ := List.mem_map.1 hins'
      rw [← he] at hop
      unfold Instruction.subst at hop
      rw [operands_mapOperands] at hop
      obtain ⟨o, _, ho⟩ := List.mem_map.1 hop
      exact subst_ne_slot (literals_removed OUT F) hc' o ho


theorem integerTyped_straightLine :
    IntegerTyped (fun _ => (SMap.empty.set "%t1" 5).set "%t2" 8) straightLine := by
  intro b ins hins hsel
  rcases b with _ | b
  · simp only [straightLine, Function.block, List.getD_cons_zero, List.mem_cons,
      List.mem_singleton, List.not_mem_nil, or_false] at hins
    rcases hins with e | e | e | e <;> subst e
    · exact absurd hsel (by decide)
    · exact Or.inl rfl
    · exact Or.inl rfl
    · exact absurd hsel (by decide)
  · simp [straightLine, Function.block] at hins

theorem rewrite_integer_typed_witness :
    ∃ G, rewrite (fun _ => (SMap.empty.set "%t1" 5).set "%t2" 8) straightLine = some G ∧
      G.block 0 = [.store (.const 5) (.slot "@x"), .ret (some (.const 8))] := by
  obtain ⟨G, hG, hb, _⟩ := rewrite_integer_typed _ straightLine integerTyped_straightLine
  refine ⟨G, hG, ?_⟩
  rw [hb 0]
  decide

/-- C4 (failing input): on `allocaConst` the final `OUT` table of the block
holds the concrete constant `5` for `%x`, the left-hand side of the `alloca`,
whose type is a pointer type; `ConstantInt::get` has no literal of that type,
so the rewrite loop stops at its first instruction without a result: the uses
of `%x` are not replaced and the instruction is not removed.  On `cmpStore`
the table holds the concrete constant `2` for the comparison `%c`, whose type
is `i1`, and the use of `%c` is replaced by the literal `false`, not by `2`. -/
theorem rewrite_fails_on_pointer_type :
    (analyse allocaConst 1).map (fun s => (s.OUT 0).find? "%x") = some (some 5) ∧
    isConstant 5 ∧
    (Instruction.alloca "%x").getType = .ptr ∧
    ConstantInt.get .ptr 5 = none ∧
    (analyse allocaConst 1).map (fun s => rewrite s.OUT allocaConst) = some none ∧
    (runOnFunction allocaConst 1).map (fun r => r.2) = none ∧
    (analyse cmpStore 1).map (fun s => (s.OUT 0).find? "%c") = some (some 2) ∧
    isConstant 2 ∧
    (Instruction.icmp "%c" .ICMP_EQ (.slot "%t") (.const 0)).getType = .i1 ∧
    ConstantInt.get .i1 2 = some (.bool false) ∧
    (runOnFunction cmpStore 1).map (fun r => r.2)
      = some ⟨[[.alloca "%x", .load "%t" (.slot "%x"), .store (.bool false) (.slot "@b"),
          .ret none]]⟩ := by
  decide

/-! ## The report -/

theorem mem_assignLine {line v : Int} {l : List (Int × Int)} {q : Int × Int}
    (h : q ∈ assignLine line v l) : q = (line, v) ∨ q ∈ l := by
  induction l with
  | nil => simpa [assignLine] using h
  | cons p t ih =>
    simp only [assignLine] at h
    split at h
    · simpa using h
    · split at h
      · rcases List.mem_cons.1 h with h | h
        · exact Or.inl h
        · exact Or.inr (List.mem_cons_of_mem _ h)
      · rcases List.mem_cons.1 h with h | h
        · exact Or.inr (h ▸ List.mem_cons_self _ _)
        · rcases ih h with h | h
          · exact Or.inl h
          · exact Or.inr (List.mem_cons_of_mem _ h)

theorem pairwise_assignLine (line v : Int) {l : List (Int × Int)}
    (h : l.Pairwise (fun a b => a.1 < b.1)) :
    (assignLine line v l).Pairwise (fun a b => a.1 < b.1) := by
  induction l with
  | nil => simp [assignLine]
  | cons p t ih =>
    have hp := List.pairwise_cons.1 h
    simp only [assignLine]
    split
    · rename_i hlt
      refine List.pairwise_cons.2 ⟨?_, h⟩
      intro q hq
      rcases List.mem_cons.1 hq with hq | hq
      · subst hq; exact hlt
      · exact lt_trans hlt (hp.1 q hq)
    · split
      · rename_i _ he
        refine List.pairwise_cons.2 ⟨?_, hp.2⟩
        intro q hq
        have := hp.1 q hq
        simpa [he] using this
      · rename_i hlt hne
        refine List.pairwise_cons.2 ⟨?_, ih hp.2⟩
        intro q hq
        rcases mem_assignLine hq with hq | hq
        · subst hq
          simp only
          omega
        · exact hp.1 q hq

theorem get_touch (m : SMap) (k k' : String) : (m.touch k).get k' = m.get k' := by
  unfold SMap.get
  rw [SMap.find?_touch]
  by_cases e : k' = k
  · subst e; simp [SMap.get]
  · simp [e]

theorem lineToVal_foldl (insToLine : SMap) (entries : List (String × Int)) :
    ∀ (l : List (String × Int)) (acc : List (Int × Int) × SMap),
      (∀ p ∈ l, p ∈ entries) →
      acc.1.Pairwise (fun a b => a.1 < b.1) →
      (∀ q ∈ acc.1, ∃ p ∈ entries, insToLine.get p.1 = q.1 ∧ p.2 = q.2) →
      (∀ k, acc.2.get k = insToLine.get k) →
      ((l.foldl (fun acc mp1 =>
          (assignLine (acc.2.get mp1.1) mp1.2 acc.1, acc.2.touch mp1.1)) acc).1.Pairwise
          (fun a b => a.1 < b.1)) ∧
      (∀ q ∈ (l.foldl (fun acc mp1 =>
          (assignLine (acc.2.get mp1.1) mp1.2 acc.1, acc.2.touch mp1.1)) acc).1,
        ∃ p ∈ entries, insToLine.get p.1 = q.1 ∧ p.2 = q.2) := by
  intro l
  induction l with
  | nil => intro acc _ h1 h2 _; exact ⟨h1, h2⟩
  | cons mp1 rest ih =>
    intro acc hsub h1 h2 h3
    simp only [List.foldl_cons]
    apply ih
    · exact fun p hp => hsub p (List.mem_cons_of_mem _ hp)
    · exact pairwise_assignLine _ _ h1
    · intro q hq
      rcases mem_assignLine hq with e | hq'
      · refine ⟨mp1, hsub mp1 (List.mem_cons_self _ _), ?_, ?_⟩
        · rw [e, h3]
        · rw [e]
      · exact h2 q hq'
    · intro k
      simp only
      rw [get_touch, h3]

/-- C11: for every table `insToVal` and every table `insToLine`, the pairs that
`printConstants` prints are strictly ascending in the line, none of them has
`INT_MIN` or `INT_MAX` as value, and each of them is the value of some key of
`insToVal` together with the line that `insToLine[key]` reads for that key (an
absent key reads as line `0`). -/
theorem printConstants_sorted_constants (insToVal insToLine : SMap) :
    (printConstants insToVal insToLine).Pairwise (fun a b => a.1 < b.1) ∧
    (∀ q ∈ printConstants insToVal insToLine, q.2 ≠ INT_MIN ∧ q.2 ≠ INT_MAX) ∧
    (∀ q ∈ printConstants insToVal insToLine,
      ∃ key, insToVal.find? key = some q.2 ∧ insToLine.get key = q.1) := by
  have h := lineToVal_foldl insToLine insToVal.entries insToVal.entries ([], insToLine)
    (fun _ hp => hp) List.Pairwise.nil (fun q hq => by simp at hq) (fun _ => rfl)
  refine ⟨?_, ?_, ?_⟩
  · exact List.Pairwise.filter _ h.1
  · intro q hq
    have := (List.mem_filter.1 hq).2
    simpa using this
  · intro q hq
    obtain ⟨p, hp, h1, h2⟩ := h.2 q (List.mem_filter.1 hq).1
    exact ⟨p.1, by rw [SMap.find?_of_mem hp, h2], h1⟩

/-! ## The scenarios -/

theorem runLoop_nil (F : Function) (n : Nat) (s : State) (h : s.q = []) :
    runLoop F n s = s := by
  cases n with
  | zero => rfl
  | succ n => simp [runLoop, h]

theorem runLoop_add (F : Function) :
    ∀ (m n : Nat) (s : State), (runLoop F m s).q = [] → runLoop F (m + n) s = runLoop F m s := by
  intro m
  induction m with
  | zero =>
    intro n s h
    simp only [runLoop] at h
    rw [runLoop_nil F _ s h, runLoop_nil F _ s h]
  | succ m ih =>
    intro n s h
    cases hq : s.q with
    | nil => rw [runLoop_nil F _ s hq, runLoop_nil F _ s hq]
    | cons b q' =>
      by_cases ht : s.trapped = true
      · rw [runLoop_trapped F _ s ht, runLoop_trapped F _ s ht]
      · have h1 : runLoop F (m + 1) s = runLoop F m (step F s) := by simp [runLoop, hq, ht]
        have h2 : runLoop F (m + 1 + n) s = runLoop F (m + n) (step F s) := by
          have : m + 1 + n = (m + n) + 1 := by omega
          rw [this]; simp [runLoop, hq, ht]
        rw [h1] at h
        rw [h1, h2, ih n _ h]

theorem analyse_add (F : Function) (m n : Nat) (h : (runLoop F m (initState F)).q = [])
    (ht : (runLoop F m (initState F)).trapped = false) :
    analyse F (m + n) = some (runLoop F m (initState F)) := by
  unfold analyse
  simp only [runLoop_add F m n _ h, h, ht, and_self, if_true]

theorem find?_copy_self (m : SMap) (dst src : String) :
    (copy m dst src).find? dst = some (m.get src) := by
  unfold copy
  rw [find?_set_self]

/-- C12: on `straightLine` the worklist loop ends after one iteration, and the
final `OUT` table of the block holds `5` for `%t1` and `8` for `%t2`, whatever
the fuel beyond one iteration; and in any block, a load through a pointer whose
table entry is the concrete constant `k` leaves `k` under the name of the
load. -/
theorem straightLine_out_and_load :
    (∀ n, (analyse straightLine (1 + n)).map
        (fun s => ((s.OUT 0).find? "%t1", (s.OUT 0).find? "%t2")) = some (some 5, some 8)) ∧
    (∀ (m : SMap) (name : String) (ptr : Operand) (next : Option Instruction) (k : Int),
      m.find? (getLhsVarFromValue ptr) = some k → isConstant k →
      (transfer (.load name ptr) next m).map (fun t => t.find? name) = some (some k)) := by
  constructor
  · intro n
    rw [analyse_add straightLine 1 n (by decide) (by decide)]
    decide
  · intro m name ptr next k hk _
    simp only [transfer, Option.map_some']
    rw [find?_copy_self]
    simp [SMap.get, hk]

theorem straightLine_out_and_load_witness :
    (SMap.empty.set "@x" 5).find? (getLhsVarFromValue (.slot "@x")) = some 5 ∧ isConstant 5 ∧
    (transfer (.load "%t1" (.slot "@x")) none (SMap.empty.set "@x" 5)).map
        (fun t => t.find? "%t1") = some (some 5) :=
  ⟨by decide, by decide,
   straightLine_out_and_load.2 (SMap.empty.set "@x" 5) "%t1" (.slot "@x") none 5
     (by decide) (by decide)⟩

/-- C13 (as stated, refuted): the function that the pass makes of `straightLine`
is not the single instruction `ret 8`. -/
theorem straightLine_not_only_ret :
    (runOnFunction straightLine 1).map (fun r => r.2)
      ≠ some ⟨[[.ret (some (.const 8))]]⟩ := by
  decide

theorem runOnFunction_add (F : Function) (m n : Nat)
    (h : (runLoop F m (initState F)).q = [])
    (ht : (runLoop F m (initState F)).trapped = false) :
    (runOnFunction F (m + n)).map (fun r => r.2)
      = rewrite (runLoop F m (initState F)).OUT F := by
  unfold runOnFunction
  rw [analyse_add F m n h ht]
  simp only [Option.map_map]
  cases rewrite (runLoop F m (initState F)).OUT F <;> rfl

/-- C13 (amended): after analysis and rewriting, the block of `straightLine`
consists of exactly two instructions, the store of `5` to `@x` and `ret 8`;
the load and the addition are gone. -/
theorem straightLine_rewritten :
    ∀ n, (runOnFunction straightLine (1 + n)).map (fun r => r.2)
      = some ⟨[[.store (.const 5) (.slot "@x"), .ret (some (.const 8))]]⟩ := by
  intro n
  rw [runOnFunction_add straightLine 1 n (by decide) (by decide)]
  decide

/-- C14: on `diamond`, block `2` (the block not taken) is in the queue at no
moment of the worklist loop, and in the final state the `IN` table of the join
block holds `2` for `%x`. -/
theorem diamond_taken_only :
    (∀ n, 2 ∉ (runLoop diamond n (initState diamond)).q) ∧
    (∀ n, (analyse diamond (3 + n)).map (fun s => (s.IN 3).find? "%x") = some (some 2)) := by
  have h3 : (runLoop diamond 3 (initState diamond)).q = [] := by decide
  constructor
  · intro n
    rcases n with _ | _ | _ | n
    · decide
    · decide
    · decide
    · have : n + 1 + 1 + 1 = 3 + n := by omega
      rw [this, runLoop_add diamond 3 n _ h3, h3]
      simp
  · intro n
    rw [analyse_add diamond 3 n h3 (by decide)]
    decide

/-- C15: on `diamondUnknown` the first iteration reads `INT_MIN` for the operand
`%t` of the comparison and puts both successors of the entry block into the
queue, and in the final state the `IN` table of the join block holds `INT_MIN`
for `%x`. -/
theorem diamondUnknown_both :
    ((runLoop diamondUnknown 1 (initState diamondUnknown)).OUT 0).find? "%t" = some INT_MIN ∧
    (runLoop diamondUnknown 1 (initState diamondUnknown)).q = [1, 2] ∧
    (∀ n, (analyse diamondUnknown (5 + n)).map (fun s => (s.IN 3).find? "%x")
      = some (some INT_MIN)) := by
  refine ⟨by decide, by decide, ?_⟩
  intro n
  rw [analyse_add diamondUnknown 5 n (by decide) (by decide)]
  decide

/-! ## The meet step -/

theorem lookup_none_of_lt {k : String} {t : List (String × Int)}
    (h : ∀ q ∈ t, keyLt k q.1 = true) : lookup k t = none := by
  induction t with
  | nil => rfl
  | cons q t ih =>
    have hq := h q (List.mem_cons_self _ _)
    have hne : k ≠ q.1 := keyLt_ne hq
    simp only [lookup, hne, if_false]
    exact ih (fun x hx => h x (List.mem_cons_of_mem _ hx))

theorem foldl_meetEntry_find? (k : String) :
    ∀ (l : List (String × Int)) (m : SMap), Ascending l →
      (l.foldl meetEntry m).find? k =
        match lookup k l with
        | some v => some (meet (m.get k) v)
        | none => m.find? k := by
  intro l
  induction l with
  | nil => intro m _; rfl
  | cons p t ih =>
    intro m ha
    have hp := List.pairwise_cons.1 ha
    simp only [List.foldl_cons]
    rw [ih (meetEntry m p) hp.2]
    by_cases e : k = p.1
    · subst e
      have hnone : lookup p.1 t = none := lookup_none_of_lt hp.1
      simp only [hnone, lookup, if_true]
      rw [meetEntry_find?]
      simp
    · have hf : (meetEntry m p).find? k = m.find? k := by
        rw [meetEntry_find?]; simp [e]
      have hg : (meetEntry m p).get k = m.get k := by
        simp [SMap.get, hf]
      simp only [lookup, e, if_false, hf, hg]

theorem meetPreds_find? (F : Function) (OUT : Nat → SMap) (block : Nat) (k : String) :
    ∀ (m : SMap) (c : Int), m.find? k = some c →
      (meetPreds F OUT block m).find? k = some (specMeet F OUT block k c) := by
  unfold meetPreds specMeet
  generalize predecessors F block = ps
  induction ps with
  | nil => intro m c h; simpa using h
  | cons p t ih =>
    intro m c h
    simp only [List.foldl_cons]
    apply ih
    rw [foldl_meetEntry_find? k _ m (OUT p).ascending]
    have hg : m.get k = c := by simp [SMap.get, h]
    show (match (OUT p).find? k with
      | some v => some (meet (m.get k) v)
      | none => m.find? k) = _
    cases (OUT p).find? k with
    | some v => simp [hg]
    | none => simp [h, meet_max_right]

theorem step_IN (F : Function) (s : State) (b : Nat) (q' : List Nat) (hq : s.q = b :: q') :
    (step F s).IN b = meetPreds F s.OUT b (s.IN b) := by
  simp [step, hq, upd]

/-- C16 (as stated, refuted): the entry block of `loopCmp` has no predecessor, so
the meet over its predecessors is `INT_MAX` (Top) for `%x`, yet the `IN` table
stored when the block is dequeued holds `INT_MIN`; and from a state that differs
only in the `IN` table of the block, the same step stores `INT_MAX`: the new
`IN` table depends on the old one. -/
theorem step_in_not_pred_meet :
    (initState loopCmp).q = [0] ∧
    specMeet loopCmp (initState loopCmp).OUT 0 "%x" INT_MAX = INT_MAX ∧
    ((step loopCmp (initState loopCmp)).IN 0).find? "%x" = some INT_MIN ∧
    ((step loopCmp { initState loopCmp with IN := (initState loopCmp).OUT }).IN 0).find? "%x"
      = some INT_MAX := by
  decide

/-- C16 (amended): when a block is dequeued, the `IN` table stored for it holds,
for every slot that the old `IN` table of the block has, the meet of the old
value with the values of the slot in the current `OUT` tables of all the
predecessors, a predecessor without the slot counting as `INT_MAX` (Top). -/
theorem step_in_meets_old (F : Function) (s : State) (b : Nat) (q' : List Nat)
    (k : String) (c : Int) (hq : s.q = b :: q') (hk : (s.IN b).find? k = some c) :
    ((step F s).IN b).find? k = some (specMeet F s.OUT b k c) := by
  rw [step_IN F s b q' hq]
  exact meetPreds_find? F s.OUT b k _ c hk

theorem step_in_meets_old_witness :
    (runLoop diamondUnknown 3 (initState diamondUnknown)).q = [3, 3] ∧
    ((runLoop diamondUnknown 3 (initState diamondUnknown)).IN 3).find? "%x" = some INT_MAX ∧
    ((step diamondUnknown (runLoop diamondUnknown 3 (initState diamondUnknown))).IN 3).find? "%x"
      = some (specMeet diamondUnknown
          (runLoop diamondUnknown 3 (initState diamondUnknown)).OUT 3 "%x" INT_MAX) ∧
    predecessors diamondUnknown 3 = [1, 2] ∧
    ((runLoop diamondUnknown 3 (initState diamondUnknown)).OUT 1).find? "%x" = some 2 ∧
    ((runLoop diamondUnknown 3 (initState diamondUnknown)).OUT 2).find? "%x" = some 3 ∧
    specMeet diamondUnknown
      (runLoop diamondUnknown 3 (initState diamondUnknown)).OUT 3 "%x" INT_MAX = INT_MIN :=
  ⟨by decide, by decide,
   step_in_meets_old diamondUnknown (runLoop diamondUnknown 3 (initState diamondUnknown)) 3 [3]
     "%x" INT_MAX (by decide) (by decide),
   by decide, by decide, by decide, by decide⟩

theorem specMeet_below (F : Function) (OUT : Nat → SMap) (block : Nat) (k : String) (c : Int) :
    specMeet F OUT block k c = c ∨ c = INT_MAX ∨ specMeet F OUT block k c = INT_MIN := by
  unfold specMeet
  generalize predecessors F block = ps
  induction ps generalizing c with
  | nil => exact Or.inl rfl
  | cons p t ih =>
    simp only [List.foldl_cons]
    generalize ((OUT p).find? k).getD INT_MAX = v
    rcases value_cases c with hc | hc | hc
    · left
      rw [hc, meet_min_left]
      rcases ih INT_MIN with h | h | h
      · exact h
      · exact absurd h (by decide)
      · exact h
    · exact Or.inr (Or.inl hc)
    · rcases value_cases v with hv | hv | hv
      · right; right
        rw [hv, meet_min_right]
        rcases ih INT_MIN with h | h | h
        · exact h
        · exact absurd h (by decide)
        · exact h
      · rw [hv, meet_max_right]; exact ih c
      · rw [meet_const hc hv]
        by_cases e : c = v
        · simp only [e, if_true]
          rw [← e]; exact ih c
        · simp only [e, if_false]
          right; right
          rcases ih INT_MIN with h | h | h
          · exact h
          · exact absurd h (by decide)
          · exact h

/-- C20: every processing of a block leaves each slot that the `IN` table of the
block already has at the meet of its old value with the values of the slot in
the predecessors' `OUT` tables, which is the old value, or `INT_MIN` (Bottom),
or anything when the old value was `INT_MAX` (Top). -/
theorem step_in_lowers (F : Function) (s : State) (b : Nat) (q' : List Nat)
    (k : String) (c : Int) (hq : s.q = b :: q') (hk : (s.IN b).find? k = some c) :
    ∃ c', ((step F s).IN b).find? k = some c' ∧ c' = specMeet F s.OUT b k c ∧
      (c' = c ∨ c = INT_MAX ∨ c' = INT_MIN) := by
  refine ⟨specMeet F s.OUT b k c, ?_, rfl, specMeet_below F s.OUT b k c⟩
  rw [step_IN F s b q' hq]
  exact meetPreds_find? F s.OUT b k _ c hk

theorem step_in_lowers_witness :
    (runLoop loopCmp 2 (initState loopCmp)).q = [1] ∧
    ((runLoop loopCmp 2 (initState loopCmp)).IN 1).find? "%x" = some 1 ∧
    ∃ c', ((step loopCmp (runLoop loopCmp 2 (initState loopCmp))).IN 1).find? "%x" = some c' ∧
      c' = specMeet loopCmp (runLoop loopCmp 2 (initState loopCmp)).OUT 1 "%x" 1 ∧
      (c' = 1 ∨ (1 : Int) = INT_MAX ∨ c' = INT_MIN) :=
  ⟨by decide, by decide,
   step_in_lowers loopCmp (runLoop loopCmp 2 (initState loopCmp)) 1 [] "%x" 1
     (by decide) (by decide)⟩

/-! ## The initial tables -/

theorem outM_fold_max (l : List Instruction) :
    ∀ m : SMap, (∀ k v, m.find? k = some v → v = INT_MAX) →
      ∀ k v, (l.foldl
        (fun m ins => if isTracked ins then m.set (getLhsVar ins) INT_MAX else m) m).find? k
          = some v → v = INT_MAX := by
  induction l with
  | nil => intro m hm; exact hm
  | cons ins rest ih =>
    intro m hm
    simp only [List.foldl_cons]
    apply ih
    intro k v h
    split_ifs at h
    · rw [find?_set] at h
      split_ifs at h
      · exact (Option.some.inj h).symm
      · exact hm k v h
    · exact hm k v h

theorem outM_blocks_max (bs : List BasicBlock) :
    ∀ m : SMap, (∀ k v, m.find? k = some v → v = INT_MAX) →
      ∀ k v, (bs.foldl (fun m bb => bb.foldl
        (fun m ins => if isTracked ins then m.set (getLhsVar ins) INT_MAX else m) m) m).find? k
          = some v → v = INT_MAX := by
  induction bs with
  | nil => intro m hm; exact hm
  | cons bb rest ih =>
    intro m hm
    simp only [List.foldl_cons]
    exact ih _ (outM_fold_max bb m hm)

theorem outM_max (F : Function) (k : String) (v : Int) (h : (outM F).find? k = some v) :
    v = INT_MAX :=
  outM_blocks_max F.blocks SMap.empty (fun k v h => by simp [SMap.find?_empty] at h) k v h

theorem foldl_set_min_keep (k : String) (l : List (String × Int)) :
    ∀ m : SMap, m.find? k = some INT_MIN →
      (l.foldl (fun m mp => m.set mp.1 INT_MIN) m).find? k = some INT_MIN := by
  induction l with
  | nil => intro m h; exact h
  | cons p rest ih =>
    intro m h
    simp only [List.foldl_cons]
    apply ih
    rw [find?_set]
    split_ifs
    · rfl
    · exact h

theorem foldl_set_min (k : String) (l : List (String × Int)) :
    ∀ m : SMap, (∃ p ∈ l, p.1 = k) →
      (l.foldl (fun m mp => m.set mp.1 INT_MIN) m).find? k = some INT_MIN := by
  induction l with
  | nil => intro m h; obtain ⟨p, hp, _⟩ := h; simp at hp
  | cons p rest ih =>
    intro m h
    simp only [List.foldl_cons]
    obtain ⟨x, hx, hxk⟩ := h
    rcases List.mem_cons.1 hx with e | hm
    · apply foldl_set_min_keep
      rw [find?_set, ← e, hxk]
      simp
    · exact ih _ ⟨x, hm, hxk⟩

/-- C17 (as stated, refuted): before the first iteration on `loopCmp`, the
tracked slot `%x` is `INT_MAX` (the identity of the meet, Top) in the `OUT`
table of both blocks and in the `IN` table of the second block, and `INT_MIN`
(the absorbing element, Bottom) in the `IN` table of the entry block. -/
theorem initState_loopCmp_values :
    (outM loopCmp).find? "%x" ≠ none ∧
    ((initState loopCmp).OUT 0).find? "%x" = some INT_MAX ∧
    ((initState loopCmp).OUT 1).find? "%x" = some INT_MAX ∧
    ((initState loopCmp).IN 1).find? "%x" = some INT_MAX ∧
    ((initState loopCmp).IN 0).find? "%x" = some INT_MIN ∧
    meet INT_MIN 7 = INT_MIN ∧ meet INT_MAX 7 = 7 := by
  decide

/-- C17 (amended): after initialisation and before the first iteration, the
`OUT` table of every block and the `IN` table of every block but the entry map
every tracked slot to `INT_MAX` (Top, the identity of the meet), and the `IN`
table of the entry block maps every tracked slot to `INT_MIN` (Bottom, the
absorbing element of the meet). -/
theorem initState_values (F : Function) (k : String) (hk : (outM F).find? k ≠ none) :
    (∀ b, b < F.blocks.length → ((initState F).OUT b).find? k = some INT_MAX) ∧
    (∀ b, b < F.blocks.length → b ≠ 0 → ((initState F).IN b).find? k = some INT_MAX) ∧
    ((initState F).IN 0).find? k = some INT_MIN := by
  obtain ⟨v, hv⟩ := Option.ne_none_iff_exists'.1 hk
  have hmax : (outM F).find? k = some INT_MAX := by rw [hv, outM_max F k v hv]
  have hlen : 0 < F.blocks.length := by
    rcases Nat.eq_zero_or_pos F.blocks.length with h0 | h0
    · exfalso
      have hnil : F.blocks = [] := List.length_eq_zero.1 h0
      have : outM F = SMap.empty := by simp [outM, hnil]
      rw [this] at hv
      simp [SMap.find?_empty] at hv
    · exact h0
  refine ⟨?_, ?_, ?_⟩
  · intro b hb
    simp [initState, hb, hmax]
  · intro b hb hne
    simp [initState, upd, hne, hb, hmax]
  · simp only [initState, upd_same, hlen, if_true]
    exact foldl_set_min k _ _ ⟨(k, INT_MAX), mem_of_lookup hmax, rfl⟩

theorem initState_values_witness :
    (outM loopCmp).find? "%x" ≠ none ∧
    ((∀ b, b < loopCmp.blocks.length → ((initState loopCmp).OUT b).find? "%x" = some INT_MAX) ∧
     (∀ b, b < loopCmp.blocks.length → b ≠ 0 →
        ((initState loopCmp).IN b).find? "%x" = some INT_MAX) ∧
     ((initState loopCmp).IN 0).find? "%x" = some INT_MIN) :=
  ⟨by decide, initState_values loopCmp "%x" (by decide)⟩

/-! ## Branches and comparisons -/

theorem ascending_ext : ∀ (l1 l2 : List (String × Int)), Ascending l1 → Ascending l2 →
    (∀ k, lookup k l1 = lookup k l2) → l1 = l2 := by
  intro l1
  induction l1 with
  | nil =>
    intro l2 _ _ h
    cases l2 with
    | nil => rfl
    | cons q t2 =>
      have := h q.1
      simp [lookup] at this
  | cons p t1 ih =>
    intro l2 ha1 ha2 h
    cases l2 with
    | nil =>
      have := h p.1
      simp [lookup] at this
    | cons q t2 =>
      have hp := List.pairwise_cons.1 ha1
      have hq := List.pairwise_cons.1 ha2
      have hkey : p.1 = q.1 := by
        by_contra hne
        have h1 := h p.1
        simp only [lookup, if_true, hne, if_false] at h1
        have hlt1 : keyLt q.1 p.1 = true := hq.1 _ (mem_of_lookup h1.symm)
        have h2 := h q.1
        have hne' : ¬ q.1 = p.1 := fun e => hne e.symm
        simp only [lookup, if_true, hne', if_false] at h2
        have hlt2 : keyLt p.1 q.1 = true := hp.1 _ (mem_of_lookup h2)
        have := keyLt_trans hlt1 hlt2
        rw [keyLt_irrefl] at this
        exact Bool.noConfusion this
      have hval : p.2 = q.2 := by
        have h1 := h p.1
        simp only [lookup, if_true, hkey] at h1
        exact Option.some.inj h1
      have hpq : p = q := Prod.ext hkey hval
      subst hpq
      have htail : ∀ k, lookup k t1 = lookup k t2 := by
        intro k
        by_cases e : k = p.1
        · rw [e, lookup_none_of_lt hp.1, lookup_none_of_lt hq.1]
        · have := h k
          simpa only [lookup, e, if_false] using this
      rw [ih t2 hp.2 hq.2 htail]

theorem compareMaps_eq_true_iff (m1 m2 : SMap) : compareMaps m1 m2 = true ↔ m1 = m2 := by
  constructor
  · intro h
    unfold compareMaps at h
    simp only [Bool.and_eq_true, List.all_eq_true, decide_eq_true_eq] at h
    apply SMap.ext_entries
    apply ascending_ext _ _ m1.ascending m2.ascending
    intro k
    cases h1 : lookup k m1.entries with
    | some v =>
      have := h.1 _ (mem_of_lookup h1)
      exact this.symm
    | none =>
      cases h2 : lookup k m2.entries with
      | none => rfl
      | some v =>
        have := h.2 _ (mem_of_lookup h2)
        simp only [SMap.find?] at this
        rw [h1] at this
        simp at this
  · intro h
    rw [h]
    exact compareMaps_self m2

/-- The queue at a conditional branch.  The candidate `OUT` table is `outMapTemp`
without the key of the condition; when it differs from the stored `OUT` table
of the block, the queue receives exactly the true successor if the condition
reads `1`, exactly the false successor if it reads `0` (which is also what a
condition without an entry reads), and both successors, in this order, if it
reads anything else; when the candidate table is the stored
one, the queue is left as it is.  In each case the candidate becomes the stored
table. -/
theorem condbr_enqueues (block : Nat) (cond : Operand) (trueBlock falseBlock : Nat)
    (next : Option Instruction) (w : Work) (cand : SMap)
    (hcand : cand = (w.outMapTemp.touch (getLhsVarFromValue cond)).erase
      (getLhsVarFromValue cond)) :
    (processIns block (.condbr cond trueBlock falseBlock) next w).OUT block = cand ∧
    (w.OUT block ≠ cand → w.outMapTemp.get (getLhsVarFromValue cond) = 1 →
      (processIns block (.condbr cond trueBlock falseBlock) next w).q = w.q ++ [trueBlock]) ∧
    (w.OUT block ≠ cand → w.outMapTemp.get (getLhsVarFromValue cond) = 0 →
      (processIns block (.condbr cond trueBlock falseBlock) next w).q = w.q ++ [falseBlock]) ∧
    (w.OUT block ≠ cand → w.outMapTemp.get (getLhsVarFromValue cond) ≠ 1 →
      w.outMapTemp.get (getLhsVarFromValue cond) ≠ 0 →
      (processIns block (.condbr cond trueBlock falseBlock) next w).q
        = w.q ++ [trueBlock, falseBlock]) ∧
    (w.OUT block = cand →
      (processIns block (.condbr cond trueBlock falseBlock) next w).q = w.q) := by
  subst hcand
  refine ⟨?_, ?_, ?_, ?_, ?_⟩
  · simp [processIns, upd]
  · intro hne h1
    have hc : compareMaps (w.OUT block)
        ((w.outMapTemp.touch (getLhsVarFromValue cond)).erase (getLhsVarFromValue cond))
        = false := by
      rw [Bool.eq_false_iff]
      exact fun h => hne ((compareMaps_eq_true_iff _ _).1 h)
    simp [processIns, hc, h1]
  · intro hne h0
    have hc : compareMaps (w.OUT block)
        ((w.outMapTemp.touch (getLhsVarFromValue cond)).erase (getLhsVarFromValue cond))
        = false := by
      rw [Bool.eq_false_iff]
      exact fun h => hne ((compareMaps_eq_true_iff _ _).1 h)
    simp [processIns, hc, h0]
  · intro hne h1 h0
    have hc : compareMaps (w.OUT block)
        ((w.outMapTemp.touch (getLhsVarFromValue cond)).erase (getLhsVarFromValue cond))
        = false := by
      rw [Bool.eq_false_iff]
      exact fun h => hne ((compareMaps_eq_true_iff _ _).1 h)
    simp [processIns, hc, h1, h0]
  · intro he
    have hc : compareMaps (w.OUT block)
        ((w.outMapTemp.touch (getLhsVarFromValue cond)).erase (getLhsVarFromValue cond))
        = true := (compareMaps_eq_true_iff _ _).2 he
    simp [processIns, hc]

/-- C18 (failing input): in `brParam` the condition of the branch is the
parameter `%p`, of which the analysis knows nothing: no table has an entry for
it.  When the entry block is processed, its candidate `OUT` table differs from
the stored one, and the queue receives the false successor only; the true
successor is in the queue at no moment, although the function called with
`%p = 1` runs through it.  In `brTrue` the condition is the literal `true`, and
again the queue receives the false successor only. -/
theorem condbr_absent_condition :
    (outM brParam).find? "%p" = none ∧
    ((initState brParam).IN 0).find? "%p" = none ∧
    (initState brParam).q = [0] ∧
    compareMaps ((initState brParam).OUT 0) ((step brParam (initState brParam)).OUT 0) = false ∧
    (step brParam (initState brParam)).q = [2] ∧
    (∀ n, 1 ∉ (runLoop brParam n (initState brParam)).q) ∧
    run brParam 3 [("%p", 1)] [] = some ⟨none, []⟩ ∧
    getLhsVarFromValue (.bool true) = "true" ∧
    ((initState brTrue).IN 0).find? "true" = none ∧
    compareMaps ((initState brTrue).OUT 0) ((step brTrue (initState brTrue)).OUT 0) = false ∧
    (step brTrue (initState brTrue)).q = [2] ∧
    (∀ n, 1 ∉ (runLoop brTrue n (initState brTrue)).q) := by
  have hP : (runLoop brParam 2 (initState brParam)).q = [] := by decide
  have hT : (runLoop brTrue 2 (initState brTrue)).q = [] := by decide
  refine ⟨by decide, by decide, by decide, by decide, by decide, ?_, by decide, by decide,
    by decide, by decide, by decide, ?_⟩
  · intro n
    rcases n with _ | _ | n
    · decide
    · decide
    · have : n + 1 + 1 = 2 + n := by omega
      rw [this, runLoop_add brParam 2 n _ hP, hP]
      simp
  · intro n
    rcases n with _ | _ | n
    · decide
    · decide
    · have : n + 1 + 1 = 2 + n := by omega
      rw [this, runLoop_add brTrue 2 n _ hT, hT]
      simp

/-- C19 (failing input): a comparison whose operand `%t` reads `INT_MIN` leaves
the constant `2`, not `INT_MIN`, under its own name, whether the next
instruction is a conditional branch or not; on `loopCmp` the final `OUT` table
of the second block holds `2` for `%c`, the report prints line `5` with value
`2`, and the test of the rewrite loop finds the concrete constant `2` for
`%c`; on `cmpStore` the rewrite removes the comparison `%c` from the block and
puts a literal in the place of its use. -/
theorem cmp_bottom_stores_two :
    operandVal (SMap.empty.set "%t" INT_MIN) (.slot "%t") = INT_MIN ∧
    (transfer (.icmp "%c" .ICMP_EQ (.slot "%t") (.const 0))
        (some (.store (.const 2) (.slot "%x"))) (SMap.empty.set "%t" INT_MIN)).map
        (fun t => t.find? "%c") = some (some 2) ∧
    (transfer (.icmp "%c" .ICMP_EQ (.slot "%t") (.const 0))
        (some (.condbr (.slot "%c") 1 2)) (SMap.empty.set "%t" INT_MIN)).map
        (fun t => t.find? "%c") = some (some 2) ∧
    isConstant 2 ∧
    (analyse loopCmp 4).map (fun s => (s.OUT 1).find? "%c") = some (some 2) ∧
    (analyse loopCmp 4).map (fun s => printConstants (s.OUT 1) (insToLine loopCmp))
      = some [(1, 2), (5, 2)] ∧
    (analyse loopCmp 4).map (fun s => constantIn (s.OUT 1) "%c") = some (some 2) ∧
    (analyse cmpStore 1).map (fun s => (s.OUT 0).find? "%c") = some (some 2) ∧
    (runOnFunction cmpStore 1).map (fun r => (r.2.block 0).map getLhsVar)
      = some ["%x", "%t", "store", "ret"] ∧
    (runOnFunction cmpStore 1).map (fun r => r.2)
      = some ⟨[[.alloca "%x", .load "%t" (.slot "%x"), .store (.bool false) (.slot "@b"),
          .ret none]]⟩ := by
  decide

end ConstantPropagation

